import Mathlib

/-!
Verification of the `smartifier2` graph transformer (arangodb-helper/graphutils,
`src/smartifier2.cpp`). Strings are modelled as `List Char`; each definition
below is a direct translation of the corresponding C++ function.
-/

set_option maxHeartbeats 1000000

/-- Position of the first occurrence of character `t` in a list, as in
`std::string::find(t)` (`none` models `npos`). -/
def idxOfCh : List Char → Char → Option Nat
  | [], _ => none
  | c :: rest, t => if c = t then some 0 else (idxOfCh rest t).map (· + 1)

/-- `std::string::find(t, start)`: first occurrence at position `≥ start`. -/
def idxOfChFrom (l : List Char) (t : Char) (start : Nat) : Option Nat :=
  (idxOfCh (l.drop start) t).map (· + start)

/-- Lookup in an association list, modelling `std::unordered_map::find`. -/
def alookup {β : Type} : List (List Char × β) → List Char → Option β
  | [], _ => none
  | (k, v) :: rest, key => if k = key then some v else alookup rest key

/-- Propositional filter on lists (used to state field-preservation claims). -/
def filterP {α : Type} (p : α → Prop) [DecidablePred p] : List α → List α
  | [] => []
  | a :: l => if p a then a :: filterP p l else filterP p l

/- ## CSV codec (`split`, `unquote`, `quote` from smartifier2.cpp) -/

/-- Scanning core of `split` (smartifier2.cpp lines 163-199): `inQ` is the
`inQuote` flag, `cur` the field accumulated since the last separator. All
characters of the line except the separators are retained in the fields. -/
def splitCore (sep quo : Char) : List Char → Bool → List Char → List (List Char)
  | [], _, cur => [cur]
  | [c], inQ, cur =>
    if inQ then [cur ++ [c]]
    else if c = quo then [cur ++ [c]]
    else if c = sep then [cur, []]
    else [cur ++ [c]]
  | c1 :: c2 :: rest, inQ, cur =>
    if inQ then
      if c1 = quo then
        if c2 = quo then splitCore sep quo rest true (cur ++ [c1, c2])
        else splitCore sep quo (c2 :: rest) false (cur ++ [c1])
      else splitCore sep quo (c2 :: rest) true (cur ++ [c1])
    else
      if c1 = quo then splitCore sep quo (c2 :: rest) true (cur ++ [c1])
      else if c1 = sep then cur :: splitCore sep quo (c2 :: rest) false []
      else splitCore sep quo (c2 :: rest) false (cur ++ [c1])

/-- `split(line, sep, quo)` from smartifier2.cpp. -/
def split (line : List Char) (sep quo : Char) : List (List Char) :=
  splitCore sep quo line false []

/-- Scanning loop of `unquote` (smartifier2.cpp lines 210-229), entered just
after the first quote character with `inQuote == true`. -/
def unquoteAux (quo : Char) : List Char → Bool → List Char
  | [], _ => []
  | [c], inQ =>
    if inQ then (if c = quo then [] else [c]) else []
  | c1 :: c2 :: rest, inQ =>
    if inQ then
      if c1 = quo then
        if c2 = quo then quo :: unquoteAux quo rest true
        else unquoteAux quo (c2 :: rest) false
      else c1 :: unquoteAux quo (c2 :: rest) true
    else
      if c1 = quo then unquoteAux quo (c2 :: rest) true
      else unquoteAux quo (c2 :: rest) false

/-- `unquote(s, quo)` from smartifier2.cpp lines 201-231: if `s` has no quote
character it is returned unchanged, otherwise everything before the first
quote is dropped and the quoted regions are decoded. -/
def unquote (s : List Char) (quo : Char) : List Char :=
  match idxOfCh s quo with
  | none => s
  | some p => unquoteAux quo (s.drop (p + 1)) true

/-- Interior escaping used by `quote`: every quote character is doubled. -/
def escapeQuo (quo : Char) : List Char → List Char
  | [] => []
  | c :: rest =>
    if c = quo then quo :: quo :: escapeQuo quo rest else c :: escapeQuo quo rest

/-- `quote(s, quo)` from smartifier2.cpp lines 233-251: identity when `s` has
no quote character, else wrap in quotes and double interior quotes. -/
def quote (s : List Char) (quo : Char) : List Char :=
  match idxOfCh s quo with
  | none => s
  | some _ => quo :: (escapeQuo quo s ++ [quo])

/- ## Basic lemmas about the codec -/

theorem idxOfCh_eq_none_iff {l : List Char} {t : Char} :
    idxOfCh l t = none ↔ t ∉ l := by
  induction l with
  | nil => simp [idxOfCh]
  | cons c rest ih =>
    by_cases h : c = t
    · subst h; simp [idxOfCh]
    · simp [idxOfCh, h, Option.map_eq_none', ih, Ne.symm h]

theorem idxOfCh_cons_self {t : Char} {l : List Char} :
    idxOfCh (t :: l) t = some 0 := by
  simp [idxOfCh]

theorem idxOfCh_append_cons {a : List Char} {t : Char} (r : List Char)
    (h : t ∉ a) : idxOfCh (a ++ t :: r) t = some a.length := by
  induction a with
  | nil => simp [idxOfCh]
  | cons c rest ih =>
    have hc : c ≠ t := fun hct => h (hct ▸ List.mem_cons_self c rest)
    have hr : t ∉ rest := fun hm => h (List.mem_cons_of_mem c hm)
    simp [idxOfCh, hc, ih hr]

theorem unquote_of_not_mem {s : List Char} {quo : Char} (h : quo ∉ s) :
    unquote s quo = s := by
  unfold unquote
  rw [idxOfCh_eq_none_iff.mpr h]

theorem quote_of_not_mem {s : List Char} {quo : Char} (h : quo ∉ s) :
    quote s quo = s := by
  unfold quote
  rw [idxOfCh_eq_none_iff.mpr h]

theorem quote_of_mem {s : List Char} {quo : Char} (h : quo ∈ s) :
    quote s quo = quo :: (escapeQuo quo s ++ [quo]) := by
  unfold quote
  cases hidx : idxOfCh s quo with
  | none => exact absurd (idxOfCh_eq_none_iff.mp hidx) (by simp [h])
  | some p => rfl

/-- Decoding the escaped body plus the closing quote recovers the string. -/
theorem unquoteAux_escape (quo : Char) (s : List Char) :
    unquoteAux quo (escapeQuo quo s ++ [quo]) true = s := by
  induction s with
  | nil => simp [escapeQuo, unquoteAux]
  | cons c rest ih =>
    by_cases h : c = quo
    · subst h
      have hshape : escapeQuo c (c :: rest) ++ [c] =
          c :: c :: (escapeQuo c rest ++ [c]) := by simp [escapeQuo]
      rw [hshape]
      simp [unquoteAux, ih]
    · have hshape : escapeQuo quo (c :: rest) ++ [quo] =
          c :: (escapeQuo quo rest ++ [quo]) := by simp [escapeQuo, h]
      have key : unquoteAux quo (c :: (escapeQuo quo rest ++ [quo])) true =
          c :: unquoteAux quo (escapeQuo quo rest ++ [quo]) true := by
        cases htail : escapeQuo quo rest ++ [quo] with
        | nil => exact absurd htail (by simp)
        | cons d ds => simp [unquoteAux, h]
      rw [hshape, key, ih]

/-- Round trip of the codec: `unquote (quote s) = s` for every string. -/
theorem unquote_quote (s : List Char) (quo : Char) :
    unquote (quote s quo) quo = s := by
  by_cases h : quo ∈ s
  · rw [quote_of_mem h]
    unfold unquote
    rw [idxOfCh_cons_self]
    simpa using unquoteAux_escape quo s
  · rw [quote_of_not_mem h, unquote_of_not_mem h]

/-- C6: for every string `s` and quote character `q`,
`unquote (quote s q) q = s`; and when `s` does not contain `q`,
`quote s q = s` (quoting is the identity on quote-free strings). -/
theorem C6_quote_unquote_round_trip (s : List Char) (q : Char) :
    unquote (quote s q) q = s ∧ (q ∉ s → quote s q = s) :=
  ⟨unquote_quote s q, fun h => quote_of_not_mem h⟩

/-- Witness for C6 at concrete inputs: a string containing the quote char and
a quote-free string. -/
theorem C6_witness :
    unquote (quote ['a', '"', 'b'] '"') '"' = ['a', '"', 'b'] ∧
      quote ['x', 'y'] '"' = ['x', 'y'] :=
  ⟨(C6_quote_unquote_round_trip ['a', '"', 'b'] '"').1,
   (C6_quote_unquote_round_trip ['x', 'y'] '"').2 (by decide)⟩

/- ## Lemmas about `split` -/

theorem splitCore_enter_quote (sep quo : Char) (l cur : List Char) :
    splitCore sep quo (quo :: l) false cur = splitCore sep quo l true (cur ++ [quo]) := by
  cases l with
  | nil => simp [splitCore]
  | cons d ds => simp [splitCore]

theorem splitCore_sep_step (sep quo : Char) (l cur : List Char) (hsq : sep ≠ quo) :
    splitCore sep quo (sep :: l) false cur = cur :: splitCore sep quo l false [] := by
  cases l with
  | nil => simp [splitCore, hsq]
  | cons d ds => simp [splitCore, hsq]

theorem splitCore_plain_step (sep quo c : Char) (l cur : List Char)
    (hq : c ≠ quo) (hs : c ≠ sep) :
    splitCore sep quo (c :: l) false cur = splitCore sep quo l false (cur ++ [c]) := by
  cases l with
  | nil => simp [splitCore, hq, hs]
  | cons d ds => simp [splitCore, hq, hs]

theorem splitCore_inq_step (sep quo c : Char) (l cur : List Char) (hq : c ≠ quo) :
    splitCore sep quo (c :: l) true cur = splitCore sep quo l true (cur ++ [c]) := by
  cases l with
  | nil => simp [splitCore, hq]
  | cons d ds => simp [splitCore, hq]

/-- Scanning a fully quoted region: the escaped body of `a` followed by the
closing quote is consumed entirely (the next character, if any, is not the
quote character). -/
theorem splitCore_scan_quoted (sep quo : Char) (a : List Char) :
    ∀ rest cur, rest.head? ≠ some quo →
      splitCore sep quo (escapeQuo quo a ++ quo :: rest) true cur =
        splitCore sep quo rest false (cur ++ escapeQuo quo a ++ [quo]) := by
  induction a with
  | nil =>
    intro rest cur hr
    cases rest with
    | nil => simp [escapeQuo, splitCore]
    | cons r rs =>
      have hrq : r ≠ quo := by
        intro h; exact hr (by simp [h])
      simp [escapeQuo, splitCore, hrq]
  | cons c a' ih =>
    intro rest cur hr
    by_cases h : c = quo
    · subst h
      have hshape : escapeQuo c (c :: a') ++ c :: rest =
          c :: c :: (escapeQuo c a' ++ c :: rest) := by simp [escapeQuo]
      rw [hshape]
      have hstep : splitCore sep c (c :: c :: (escapeQuo c a' ++ c :: rest)) true cur =
          splitCore sep c (escapeQuo c a' ++ c :: rest) true (cur ++ [c, c]) := by
        simp [splitCore]
      rw [hstep, ih rest (cur ++ [c, c]) hr]
      simp [escapeQuo]
    · have hshape : escapeQuo quo (c :: a') ++ quo :: rest =
          c :: (escapeQuo quo a' ++ quo :: rest) := by simp [escapeQuo, h]
      rw [hshape, splitCore_inq_step sep quo c _ cur h, ih rest (cur ++ [c]) hr]
      simp [escapeQuo, h]

/-- Scanning an unquoted region free of separators and quote characters. -/
theorem splitCore_scan_plain (sep quo : Char) (a : List Char) :
    ∀ rest cur, sep ∉ a → quo ∉ a →
      splitCore sep quo (a ++ rest) false cur =
        splitCore sep quo rest false (cur ++ a) := by
  induction a with
  | nil => intro rest cur _ _; simp
  | cons c a' ih =>
    intro rest cur hs hq
    have hcs : c ≠ sep := fun h => hs (h ▸ List.mem_cons_self c a')
    have hcq : c ≠ quo := fun h => hq (h ▸ List.mem_cons_self c a')
    have hs' : sep ∉ a' := fun h => hs (List.mem_cons_of_mem c h)
    have hq' : quo ∉ a' := fun h => hq (List.mem_cons_of_mem c h)
    rw [List.cons_append, splitCore_plain_step sep quo c _ cur hcq hcs,
      ih rest (cur ++ [c]) hs' hq']
    simp

/-- The trailing field: scanning a single quoted field to the end of line. -/
theorem splitCore_final_field (sep quo : Char) (b : List Char)
    (hsq : sep ≠ quo) (hb : quo ∈ b ∨ sep ∉ b) :
    splitCore sep quo (quote b quo) false [] = [quote b quo] := by
  by_cases hqb : quo ∈ b
  · rw [quote_of_mem hqb, splitCore_enter_quote]
    simp only [List.nil_append]
    rw [splitCore_scan_quoted sep quo b [] [quo] (by simp)]
    simp [splitCore]
  · have hsb : sep ∉ b := hb.resolve_left hqb
    have h2 := splitCore_scan_plain sep quo b [] [] hsb hqb
    simp only [List.append_nil, List.nil_append] at h2
    rw [quote_of_not_mem hqb, h2]
    simp [splitCore]

/-- C7 (amended): when the separator differs from the quote character and each
of `a`, `b` either contains the quote character (so it gets fully quoted) or
contains no separator, `split (quote a + sep + quote b)` yields exactly the two
fields `quote a` and `quote b`, whose `unquote` values are `a` and `b`. -/
theorem C7_split_two_quoted_fields (a b : List Char) (sep quo : Char)
    (hsq : sep ≠ quo) (ha : quo ∈ a ∨ sep ∉ a) (hb : quo ∈ b ∨ sep ∉ b) :
    split (quote a quo ++ sep :: quote b quo) sep quo =
        [quote a quo, quote b quo] ∧
      (split (quote a quo ++ sep :: quote b quo) sep quo).length = 2 ∧
      unquote ((split (quote a quo ++ sep :: quote b quo) sep quo).getD 0 []) quo = a ∧
      unquote ((split (quote a quo ++ sep :: quote b quo) sep quo).getD 1 []) quo = b := by
  have main : split (quote a quo ++ sep :: quote b quo) sep quo =
      [quote a quo, quote b quo] := by
    unfold split
    by_cases hqa : quo ∈ a
    · rw [quote_of_mem hqa]
      have hshape : (quo :: (escapeQuo quo a ++ [quo])) ++ sep :: quote b quo =
          quo :: (escapeQuo quo a ++ quo :: (sep :: quote b quo)) := by simp
      rw [hshape, splitCore_enter_quote]
      simp only [List.nil_append]
      rw [splitCore_scan_quoted sep quo a (sep :: quote b quo) [quo]
          (by simpa using hsq),
        splitCore_sep_step sep quo _ _ hsq,
        splitCore_final_field sep quo b hsq hb]
      simp
    · have hsa : sep ∉ a := ha.resolve_left hqa
      rw [quote_of_not_mem hqa,
        splitCore_scan_plain sep quo a (sep :: quote b quo) [] hsa hqa]
      simp only [List.nil_append]
      rw [splitCore_sep_step sep quo _ _ hsq,
        splitCore_final_field sep quo b hsq hb]
  refine ⟨main, ?_, ?_, ?_⟩ <;> rw [main]
  · rfl
  · simpa using unquote_quote a quo
  · simpa using unquote_quote b quo

/-- Witness for C7 at concrete inputs (`a` contains the quote character, `b`
is separator-free). -/
theorem C7_witness :
    split (quote ['p', '"', 'q'] '"' ++ ',' :: quote ['z'] '"') ',' '"' =
      [quote ['p', '"', 'q'] '"', quote ['z'] '"'] :=
  (C7_split_two_quoted_fields ['p', '"', 'q'] ['z'] ',' '"' (by decide)
    (Or.inl (by decide)) (Or.inr (by decide))).1

/-- Counterexample for C7 as stated: with `a = "x,y"` (contains the separator
but not the quote character) and `b = "z"`, `quote` is the identity on `a`, so
`split` cuts inside `a` and yields three fields, not two. -/
theorem C7_cex :
    (split (quote ['x', ',', 'y'] '"' ++ ',' :: quote ['z'] '"') ',' '"').length ≠ 2 := by
  decide

/- ## List position helpers -/

theorem drop_len_succ_append {α : Type} (a : List α) (c : α) (r : List α) :
    (a ++ c :: r).drop (a.length + 1) = r := by
  induction a with
  | nil => simp
  | cons x xs ih => simpa using ih

theorem take_len_succ_append {α : Type} (a : List α) (c : α) (r : List α) :
    (a ++ c :: r).take (a.length + 1) = a ++ [c] := by
  induction a with
  | nil => simp
  | cons x xs ih => simpa using ih

theorem take_len_append {α : Type} (a l : List α) : (a ++ l).take a.length = a := by
  induction a with
  | nil => simp
  | cons x xs ih => simpa using ih

/- ## Edge endpoint translation (the `translate` lambdas of
`transformEdgesCSV` lines 770-806 and `transformEdgesJSONL` lines 875-921) -/

/-- Common tail of the JSONL `translate` lambda, after the slash position has
been determined: `nv` is the (possibly coll-prepended) endpoint value. -/
def translateTail (keyTab : List (List Char × Nat)) (attrs : List (List Char))
    (smartIndex : Int) (nv : List Char) (slashpos : Nat) : List Char × List Char :=
  match idxOfChFrom nv ':' (slashpos + 1) with
  | some colPos => (nv, (nv.drop (slashpos + 1)).take (colPos - (slashpos + 1)))
  | none =>
    if smartIndex > 0 then
      (nv.take (slashpos + 1) ++ ((nv.drop (slashpos + 1)).take smartIndex.toNat
          ++ ':' :: nv.drop (slashpos + 1)),
        (nv.drop (slashpos + 1)).take smartIndex.toNat)
    else
      match alookup keyTab nv with
      | none => (nv, [])
      | some id =>
        (nv.take (slashpos + 1) ++ (attrs.getD id [] ++ ':' :: nv.drop (slashpos + 1)),
          attrs.getD id [])

/-- The `translate` lambda of `transformEdgesJSONL` (lines 875-921) on a
string-valued endpoint: returns the new endpoint value and the resolved smart
graph attribute. -/
def translateJSONL (keyTab : List (List Char × Nat)) (attrs : List (List Char))
    (smartIndex : Int) (coll v : List Char) : List Char × List Char :=
  match idxOfCh v '/' with
  | none => translateTail keyTab attrs smartIndex (coll ++ '/' :: v) coll.length
  | some p => translateTail keyTab attrs smartIndex v p

/-- Common tail of the CSV `translate` lambda: `field` is the current quoted
cell content (already replaced by `quote nv` when the collection name was
prepended), `nv` its unquoted value. -/
def translateCSVTail (quo : Char) (keyTab : List (List Char × Nat))
    (attrs : List (List Char)) (smartIndex : Int) (field nv : List Char)
    (slashpos : Nat) : List Char × List Char :=
  match idxOfChFrom nv ':' (slashpos + 1) with
  | some colPos => (field, (nv.drop (slashpos + 1)).take (colPos - (slashpos + 1)))
  | none =>
    if smartIndex > 0 then
      (quote (nv.take (slashpos + 1) ++ ((nv.drop (slashpos + 1)).take smartIndex.toNat
          ++ ':' :: nv.drop (slashpos + 1))) quo,
        (nv.drop (slashpos + 1)).take smartIndex.toNat)
    else
      match alookup keyTab nv with
      | none => (field, [])
      | some id =>
        (quote (nv.take (slashpos + 1) ++ (attrs.getD id [] ++ ':' :: nv.drop (slashpos + 1))) quo,
          attrs.getD id [])

/-- The `translate` lambda of `transformEdgesCSV` (lines 770-806): acts on the
raw cell `field`; returns the final cell content and the resolved smart graph
attribute. -/
def translateCSVField (quo : Char) (keyTab : List (List Char × Nat))
    (attrs : List (List Char)) (smartIndex : Int) (coll field : List Char) :
    List Char × List Char :=
  match idxOfCh (unquote field quo) '/' with
  | none => translateCSVTail quo keyTab attrs smartIndex
      (quote (coll ++ '/' :: unquote field quo) quo)
      (coll ++ '/' :: unquote field quo) coll.length
  | some p => translateCSVTail quo keyTab attrs smartIndex field (unquote field quo) p

/- ## Evaluation lemmas for the translate tails -/

theorem idxOfChFrom_split (coll' : List Char) (c : Char) (k : List Char) (t : Char) :
    idxOfChFrom (coll' ++ c :: k) t (coll'.length + 1) =
      (idxOfCh k t).map (· + (coll'.length + 1)) := by
  unfold idxOfChFrom
  rw [drop_len_succ_append]

theorem translateTail_colon (keyTab : List (List Char × Nat))
    (attrs : List (List Char)) (si : Int) (coll' pre rest : List Char)
    (hpre : ':' ∉ pre) :
    translateTail keyTab attrs si (coll' ++ '/' :: (pre ++ ':' :: rest)) coll'.length =
      (coll' ++ '/' :: (pre ++ ':' :: rest), pre) := by
  unfold translateTail
  rw [idxOfChFrom_split, idxOfCh_append_cons rest hpre]
  simp [drop_len_succ_append, take_len_append]

theorem translateTail_noColon_smartIndex (keyTab : List (List Char × Nat))
    (attrs : List (List Char)) (si : Int) (coll' k : List Char)
    (hk : ':' ∉ k) (hsi : si > 0) :
    translateTail keyTab attrs si (coll' ++ '/' :: k) coll'.length =
      (coll' ++ '/' :: (k.take si.toNat ++ ':' :: k), k.take si.toNat) := by
  unfold translateTail
  rw [idxOfChFrom_split, idxOfCh_eq_none_iff.mpr hk]
  simp [hsi, drop_len_succ_append, take_len_succ_append]

theorem translateTail_noColon_lookup (keyTab : List (List Char × Nat))
    (attrs : List (List Char)) (si : Int) (coll' k : List Char)
    (hk : ':' ∉ k) (hsi : ¬si > 0) :
    translateTail keyTab attrs si (coll' ++ '/' :: k) coll'.length =
      match alookup keyTab (coll' ++ '/' :: k) with
      | none => (coll' ++ '/' :: k, [])
      | some id => (coll' ++ '/' :: (attrs.getD id [] ++ ':' :: k), attrs.getD id []) := by
  unfold translateTail
  rw [idxOfChFrom_split, idxOfCh_eq_none_iff.mpr hk]
  cases halo : alookup keyTab (coll' ++ '/' :: k) with
  | none => simp [hsi, halo]
  | some id => simp [hsi, halo, drop_len_succ_append, take_len_succ_append]

theorem translateCSVTail_colon (quo : Char) (keyTab : List (List Char × Nat))
    (attrs : List (List Char)) (si : Int) (field coll' pre rest : List Char)
    (hpre : ':' ∉ pre) :
    translateCSVTail quo keyTab attrs si field
        (coll' ++ '/' :: (pre ++ ':' :: rest)) coll'.length = (field, pre) := by
  unfold translateCSVTail
  rw [idxOfChFrom_split, idxOfCh_append_cons rest hpre]
  simp [drop_len_succ_append, take_len_append]

theorem translateCSVTail_noColon_smartIndex (quo : Char)
    (keyTab : List (List Char × Nat)) (attrs : List (List Char)) (si : Int)
    (field coll' k : List Char) (hk : ':' ∉ k) (hsi : si > 0) :
    translateCSVTail quo keyTab attrs si field (coll' ++ '/' :: k) coll'.length =
      (quote (coll' ++ '/' :: (k.take si.toNat ++ ':' :: k)) quo, k.take si.toNat) := by
  unfold translateCSVTail
  rw [idxOfChFrom_split, idxOfCh_eq_none_iff.mpr hk]
  simp [hsi, drop_len_succ_append, take_len_succ_append]

theorem translateCSVTail_noColon_lookup (quo : Char)
    (keyTab : List (List Char × Nat)) (attrs : List (List Char)) (si : Int)
    (field coll' k : List Char) (hk : ':' ∉ k) (hsi : ¬si > 0) :
    translateCSVTail quo keyTab attrs si field (coll' ++ '/' :: k) coll'.length =
      match alookup keyTab (coll' ++ '/' :: k) with
      | none => (field, [])
      | some id =>
        (quote (coll' ++ '/' :: (attrs.getD id [] ++ ':' :: k)) quo, attrs.getD id []) := by
  unfold translateCSVTail
  rw [idxOfChFrom_split, idxOfCh_eq_none_iff.mpr hk]
  cases halo : alookup keyTab (coll' ++ '/' :: k) with
  | none => simp [hsi, halo]
  | some id => simp [hsi, halo, drop_len_succ_append, take_len_succ_append]

theorem translateJSONL_slash (keyTab : List (List Char × Nat))
    (attrs : List (List Char)) (si : Int) (coll coll' k : List Char)
    (hc : '/' ∉ coll') :
    translateJSONL keyTab attrs si coll (coll' ++ '/' :: k) =
      translateTail keyTab attrs si (coll' ++ '/' :: k) coll'.length := by
  unfold translateJSONL
  rw [idxOfCh_append_cons k hc]

theorem translateCSVField_slash (quo : Char) (keyTab : List (List Char × Nat))
    (attrs : List (List Char)) (si : Int) (coll coll' k field : List Char)
    (hc : '/' ∉ coll') (hfield : unquote field quo = coll' ++ '/' :: k) :
    translateCSVField quo keyTab attrs si coll field =
      translateCSVTail quo keyTab attrs si field (coll' ++ '/' :: k) coll'.length := by
  unfold translateCSVField
  rw [hfield, idxOfCh_append_cons k hc]

/-- C2: edge endpoint rewriting, for both the JSONL and the CSV translate
lambda: (1) an endpoint without '/' gets the default vertex collection name
and '/' prepended (the result is that of translating the prepended value);
(2) if the part after '/' contains ':', that part before the ':' is returned
as the resolved smart graph attribute and the endpoint is unchanged
(byte-identical for CSV); (3) with smart-index > 0 the attribute is the first
smart-index bytes of the key after '/' and the endpoint becomes
coll/att:key; (4) otherwise the full coll/key string is looked up in the key
table: on a hit the endpoint becomes coll/att:key with att = attrs[id], on a
miss it is unchanged and the resolved attribute is empty. -/
theorem C2_endpoint_rewrite (keyTab : List (List Char × Nat))
    (attrs : List (List Char)) (si : Int) (quo : Char) (coll : List Char)
    (hcoll : '/' ∉ coll) :
    (∀ v, '/' ∉ v →
      translateJSONL keyTab attrs si coll v =
        translateJSONL keyTab attrs si coll (coll ++ '/' :: v)) ∧
    (∀ field, '/' ∉ unquote field quo →
      translateCSVField quo keyTab attrs si coll field =
        translateCSVField quo keyTab attrs si coll
          (quote (coll ++ '/' :: unquote field quo) quo)) ∧
    (∀ coll' pre rest, '/' ∉ coll' → ':' ∉ pre →
      translateJSONL keyTab attrs si coll (coll' ++ '/' :: (pre ++ ':' :: rest)) =
        (coll' ++ '/' :: (pre ++ ':' :: rest), pre)) ∧
    (∀ field coll' pre rest, '/' ∉ coll' → ':' ∉ pre →
      unquote field quo = coll' ++ '/' :: (pre ++ ':' :: rest) →
      translateCSVField quo keyTab attrs si coll field = (field, pre)) ∧
    (si > 0 → ∀ coll' k, '/' ∉ coll' → ':' ∉ k →
      translateJSONL keyTab attrs si coll (coll' ++ '/' :: k) =
        (coll' ++ '/' :: (k.take si.toNat ++ ':' :: k), k.take si.toNat)) ∧
    (si > 0 → ∀ field coll' k, '/' ∉ coll' → ':' ∉ k →
      unquote field quo = coll' ++ '/' :: k →
      translateCSVField quo keyTab attrs si coll field =
        (quote (coll' ++ '/' :: (k.take si.toNat ++ ':' :: k)) quo, k.take si.toNat)) ∧
    (¬si > 0 → ∀ coll' k id, '/' ∉ coll' → ':' ∉ k →
      alookup keyTab (coll' ++ '/' :: k) = some id →
      translateJSONL keyTab attrs si coll (coll' ++ '/' :: k) =
        (coll' ++ '/' :: (attrs.getD id [] ++ ':' :: k), attrs.getD id [])) ∧
    (¬si > 0 → ∀ coll' k, '/' ∉ coll' → ':' ∉ k →
      alookup keyTab (coll' ++ '/' :: k) = none →
      translateJSONL keyTab attrs si coll (coll' ++ '/' :: k) =
        (coll' ++ '/' :: k, [])) ∧
    (¬si > 0 → ∀ field coll' k id, '/' ∉ coll' → ':' ∉ k →
      unquote field quo = coll' ++ '/' :: k →
      alookup keyTab (coll' ++ '/' :: k) = some id →
      translateCSVField quo keyTab attrs si coll field =
        (quote (coll' ++ '/' :: (attrs.getD id [] ++ ':' :: k)) quo, attrs.getD id [])) ∧
    (¬si > 0 → ∀ field coll' k, '/' ∉ coll' → ':' ∉ k →
      unquote field quo = coll' ++ '/' :: k →
      alookup keyTab (coll' ++ '/' :: k) = none →
      translateCSVField quo keyTab attrs si coll field = (field, [])) := by
  refine ⟨?_, ?_, ?_, ?_, ?_, ?_, ?_, ?_, ?_, ?_⟩
  · intro v hv
    rw [translateJSONL_slash keyTab attrs si coll coll v hcoll]
    unfold translateJSONL
    rw [idxOfCh_eq_none_iff.mpr hv]
  · intro field hf
    rw [translateCSVField_slash quo keyTab attrs si coll coll
      (unquote field quo) (quote (coll ++ '/' :: unquote field quo) quo) hcoll
      (unquote_quote (coll ++ '/' :: unquote field quo) quo)]
    unfold translateCSVField
    rw [idxOfCh_eq_none_iff.mpr hf]
  · intro coll' pre rest hc hp
    rw [translateJSONL_slash keyTab attrs si coll coll' _ hc,
      translateTail_colon keyTab attrs si coll' pre rest hp]
  · intro field coll' pre rest hc hp hfield
    rw [translateCSVField_slash quo keyTab attrs si coll coll' _ field hc hfield,
      translateCSVTail_colon quo keyTab attrs si field coll' pre rest hp]
  · intro hsi coll' k hc hk
    rw [translateJSONL_slash keyTab attrs si coll coll' k hc,
      translateTail_noColon_smartIndex keyTab attrs si coll' k hk hsi]
  · intro hsi field coll' k hc hk hfield
    rw [translateCSVField_slash quo keyTab attrs si coll coll' k field hc hfield,
      translateCSVTail_noColon_smartIndex quo keyTab attrs si field coll' k hk hsi]
  · intro hsi coll' k id hc hk hhit
    rw [translateJSONL_slash keyTab attrs si coll coll' k hc,
      translateTail_noColon_lookup keyTab attrs si coll' k hk hsi, hhit]
  · intro hsi coll' k hc hk hmiss
    rw [translateJSONL_slash keyTab attrs si coll coll' k hc,
      translateTail_noColon_lookup keyTab attrs si coll' k hk hsi, hmiss]
  · intro hsi field coll' k id hc hk hfield hhit
    rw [translateCSVField_slash quo keyTab attrs si coll coll' k field hc hfield,
      translateCSVTail_noColon_lookup quo keyTab attrs si field coll' k hk hsi, hhit]
  · intro hsi field coll' k hc hk hfield hmiss
    rw [translateCSVField_slash quo keyTab attrs si coll coll' k field hc hfield,
      translateCSVTail_noColon_lookup quo keyTab attrs si field coll' k hk hsi, hmiss]

/-- Witness for C2: each of the case groups applied at concrete inputs
(key table maps V/k to id 0, attrs[0] = A). -/
theorem C2_witness :
    translateJSONL [(['V', '/', 'k'], 0)] [['A']] (-1) ['V'] ['k'] =
        translateJSONL [(['V', '/', 'k'], 0)] [['A']] (-1) ['V'] ['V', '/', 'k'] ∧
      translateJSONL [(['V', '/', 'k'], 0)] [['A']] (-1) ['V']
          ['W', '/', 'A', ':', 'x'] = (['W', '/', 'A', ':', 'x'], ['A']) ∧
      translateJSONL [(['V', '/', 'k'], 0)] [['A']] 2 ['V'] ['W', '/', 'a', 'b', 'c'] =
        (['W', '/', 'a', 'b', ':', 'a', 'b', 'c'], ['a', 'b']) ∧
      translateJSONL [(['V', '/', 'k'], 0)] [['A']] (-1) ['V'] ['V', '/', 'k'] =
        (['V', '/', 'A', ':', 'k'], ['A']) ∧
      translateCSVField '"' [(['V', '/', 'k'], 0)] [['A']] (-1) ['V']
          ['W', '/', 'A', ':', 'x'] = (['W', '/', 'A', ':', 'x'], ['A']) := by
  obtain ⟨c1, c2, c3, c4, c5, c6, c7, c8, c9, c10⟩ :=
    C2_endpoint_rewrite [(['V', '/', 'k'], 0)] [['A']] (-1) '"' ['V'] (by decide)
  obtain ⟨d1, d2, d3, d4, d5, d6, d7, d8, d9, d10⟩ :=
    C2_endpoint_rewrite [(['V', '/', 'k'], 0)] [['A']] 2 '"' ['V'] (by decide)
  refine ⟨c1 ['k'] (by decide),
    c3 ['W'] ['A'] ['x'] (by decide) (by decide),
    d5 (by decide) ['W'] ['a', 'b', 'c'] (by decide) (by decide),
    c7 (by decide) ['V'] ['k'] 0 (by decide) (by decide) (by decide),
    c4 ['W', '/', 'A', ':', 'x'] ['W'] ['A'] ['x'] (by decide) (by decide) (by decide)⟩

/- ## JSONL record model

A parsed JSON object is a list of (field name, value) pairs in encounter
order. Values are either strings, scalars (bool/number/date, whose
`toString`/`toJson` renderings coincide) or complex values (array/object)
carrying their JSON rendering; JSON string escaping is elided, matching the
raw `'"' << value << '"'` emission used by the C++ writer. -/

inductive JVal where
  | str : List Char → JVal
  | scalar : List Char → JVal
  | complex : List Char → JVal
deriving DecidableEq

/-- `Slice::toJson` on our value model. -/
def renderJ : JVal → List Char
  | .str s => '"' :: (s ++ ['"'])
  | .scalar r => r
  | .complex r => r

/-- `Slice::get(name)`: first field with the given name. -/
def getJ (obj : List (List Char × JVal)) (name : List Char) : Option JVal :=
  alookup obj name

/-- The field name `_key`. -/
def kKey : List Char := ['_', 'k', 'e', 'y']

/-- The field name `_from`. -/
def kFrom : List Char := ['_', 'f', 'r', 'o', 'm']

/-- The field name `_to`. -/
def kTo : List Char := ['_', 't', 'o']

/-- `smartToString` (smartifier2.cpp lines 345-371): strings pass through,
a missing attribute yields the default, scalars are stringified, complex
values yield the empty string. -/
def smartToString : Option JVal → List Char → List Char
  | some (.str s), _ => s
  | none, dflt => dflt
  | some (.scalar r), _ => r
  | some (.complex _), _ => []

/-- Derivation of the smart graph attribute value in `transformVertexJSONL`
(lines 382-399). `hashFn` stands for the deterministic `calculateSha1`. -/
def attOfVertexJSONL (smartAttr smartValue : List Char) (smartIndex : Int)
    (hashSmartValue : Bool) (hashFn : List Char → List Char)
    (smartDefault : List Char) (obj : List (List Char × JVal)) : List Char :=
  let att0 :=
    if smartValue ≠ [] then
      let a := smartToString (getJ obj smartValue) smartDefault
      let a := if hashSmartValue then hashFn a else a
      if smartIndex > 0 then a.take smartIndex.toNat else a
    else []
  if att0 = [] then smartToString (getJ obj smartAttr) smartDefault else att0

/-- Computation of the new `_key` in `transformVertexJSONL` (lines 401-427):
a key that already contains ':' is kept unchanged (with only a warning when
its part before ':' differs from the attribute); a colon-free key is
prefixed with `att:` when `att` is non-empty. -/
def newKeyVertexJSONL (keyValue att : List Char)
    (obj : List (List Char × JVal)) : List Char :=
  match getJ obj (if keyValue ≠ [] then keyValue else kKey) with
  | some (.str key) =>
    (match idxOfCh key ':' with
     | some _ => key
     | none => if att ≠ [] then att ++ ':' :: key else key)
  | _ => []

/-- Output line of `transformVertexJSONL` (lines 429-441) as a list of
(field name, rendered JSON value) pairs. -/
def vertexLineJSONL (smartAttr smartValue : List Char) (smartIndex : Int)
    (hashSmartValue : Bool) (hashFn : List Char → List Char)
    (smartDefault : List Char) (writeKey : Bool) (keyValue : List Char)
    (obj : List (List Char × JVal)) : List (List Char × List Char) :=
  let att := attOfVertexJSONL smartAttr smartValue smartIndex hashSmartValue
    hashFn smartDefault obj
  let newKey := newKeyVertexJSONL keyValue att obj
  (if writeKey = true ∨ newKey ≠ [] then [(kKey, '"' :: (newKey ++ ['"']))] else []) ++
    ((smartAttr, '"' :: (att ++ ['"'])) ::
      (filterP (fun p => p.1 ≠ kKey ∧ p.1 ≠ smartAttr) obj).map
        (fun p => (p.1, renderJ p.2)))

/-- Endpoint resolution in `transformEdgesJSONL`: `none` models
`foundFlag == false` (field missing or not a string). -/
def endpointRes (keyTab : List (List Char × Nat)) (attrs : List (List Char))
    (si : Int) (coll name : List Char) (obj : List (List Char × JVal)) :
    Option (List Char × List Char) :=
  match getJ obj name with
  | some (.str v) => some (translateJSONL keyTab attrs si coll v)
  | _ => none

/-- `_key` handling of `transformEdgesJSONL` (lines 931-945): `none` models
`foundKey == false`; `some newKey` carries the computed replacement, which is
empty when the existing key already contains ':'. -/
def edgeKeyRes (fromAttr toAttr : List Char)
    (obj : List (List Char × JVal)) : Option (List Char) :=
  if fromAttr ≠ [] ∧ toAttr ≠ [] then
    match getJ obj kKey with
    | some (.str k) =>
      some (match idxOfCh k ':' with
            | none => fromAttr ++ ':' :: (k ++ ':' :: toAttr)
            | some _ => [])
    | _ => none
  else none

/-- The `output` lambda of `transformEdgesJSONL` (lines 949-964): emit the
field only when found; use the new value if non-empty, else the original. -/
def outSpecial (obj : List (List Char × JVal)) (name : List Char)
    (res : Option (List Char)) : List (List Char × List Char) :=
  match res with
  | none => []
  | some nv =>
    [(name,
      if nv = [] then
        (match getJ obj name with | some jv => renderJ jv | none => [])
      else '"' :: (nv ++ ['"']))]

/-- Output line of `transformEdgesJSONL` (lines 870-982) as a list of
(field name, rendered JSON value) pairs. -/
def edgeLineJSONL (keyTab : List (List Char × Nat)) (attrs : List (List Char))
    (si : Int) (fromColl toColl : List Char)
    (obj : List (List Char × JVal)) : List (List Char × List Char) :=
  let fromRes := endpointRes keyTab attrs si fromColl kFrom obj
  let toRes := endpointRes keyTab attrs si toColl kTo obj
  outSpecial obj kKey
      (edgeKeyRes ((fromRes.map Prod.snd).getD []) ((toRes.map Prod.snd).getD []) obj) ++
    (outSpecial obj kFrom (fromRes.map Prod.fst) ++
      (outSpecial obj kTo (toRes.map Prod.fst) ++
        (filterP (fun p => p.1 ≠ kKey ∧ p.1 ≠ kFrom ∧ p.1 ≠ kTo) obj).map
          (fun p => (p.1, renderJ p.2))))

/- ## Generic lemmas: association lists, filters, padding, set/getD -/

theorem alookup_append {β : Type} (l1 l2 : List (List Char × β)) (k : List Char) :
    alookup (l1 ++ l2) k =
      match alookup l1 k with
      | some v => some v
      | none => alookup l2 k := by
  induction l1 with
  | nil => simp [alookup]
  | cons p rest ih =>
    obtain ⟨a, b⟩ := p
    by_cases h : a = k
    · simp [alookup, h]
    · simp [alookup, h, ih]

theorem alookup_eq_none_of_all {β : Type} (l : List (List Char × β))
    (k : List Char) (h : ∀ p ∈ l, p.1 ≠ k) : alookup l k = none := by
  induction l with
  | nil => rfl
  | cons p rest ih =>
    obtain ⟨a, b⟩ := p
    have ha : a ≠ k := h (a, b) (List.mem_cons_self _ _)
    simp only [alookup, if_neg ha]
    exact ih fun q hq => h q (List.mem_cons_of_mem _ hq)

theorem mem_filterP {α : Type} (p : α → Prop) [DecidablePred p] (l : List α)
    (x : α) (hx : x ∈ filterP p l) : p x ∧ x ∈ l := by
  induction l with
  | nil => simp [filterP] at hx
  | cons a rest ih =>
    by_cases h : p a
    · rw [filterP, if_pos h] at hx
      rcases List.mem_cons.mp hx with h1 | h2
      · exact ⟨h1 ▸ h, h1 ▸ List.mem_cons_self a rest⟩
      · exact ⟨(ih h2).1, List.mem_cons_of_mem a (ih h2).2⟩
    · rw [filterP, if_neg h] at hx
      exact ⟨(ih hx).1, List.mem_cons_of_mem a (ih hx).2⟩

theorem filterP_append {α : Type} (p : α → Prop) [DecidablePred p]
    (l1 l2 : List α) : filterP p (l1 ++ l2) = filterP p l1 ++ filterP p l2 := by
  induction l1 with
  | nil => simp [filterP]
  | cons a rest ih =>
    by_cases h : p a
    · simp [filterP, h, ih]
    · simp [filterP, h, ih]

theorem filterP_eq_nil_of_all {α : Type} (p : α → Prop) [DecidablePred p]
    (l : List α) (h : ∀ x ∈ l, ¬p x) : filterP p l = [] := by
  induction l with
  | nil => rfl
  | cons a rest ih =>
    rw [filterP, if_neg (h a (List.mem_cons_self a rest))]
    exact ih fun x hx => h x (List.mem_cons_of_mem a hx)

theorem filterP_eq_self_of_all {α : Type} (p : α → Prop) [DecidablePred p]
    (l : List α) (h : ∀ x ∈ l, p x) : filterP p l = l := by
  induction l with
  | nil => rfl
  | cons a rest ih =>
    rw [filterP, if_pos (h a (List.mem_cons_self a rest))]
    rw [ih fun x hx => h x (List.mem_cons_of_mem a hx)]

theorem filterP_map {α β : Type} (f : α → β) (p : β → Prop) (q : α → Prop)
    [DecidablePred p] [DecidablePred q] (h : ∀ a, p (f a) ↔ q a) (l : List α) :
    filterP p (l.map f) = (filterP q l).map f := by
  induction l with
  | nil => rfl
  | cons a rest ih =>
    by_cases hq : q a
    · rw [List.map_cons, filterP, if_pos ((h a).mpr hq), filterP, if_pos hq,
        List.map_cons, ih]
    · rw [List.map_cons, filterP, if_neg (fun hp => hq ((h a).mp hp)), filterP,
        if_neg hq, ih]

theorem drop_len_append {α : Type} (a b : List α) : (a ++ b).drop a.length = b := by
  induction a with
  | nil => simp
  | cons x xs ih => simpa using ih

/-- Padding with empty columns (`while (parts.size() < ncols) parts.emplace_back("")`,
smartifier2.cpp lines 290-292 and 766-768). -/
def padTo (parts : List (List Char)) (n : Nat) : List (List Char) :=
  parts ++ List.replicate (n - parts.length) []

theorem length_padTo (l : List (List Char)) (n : Nat) :
    (padTo l n).length = max l.length n := by
  simp only [padTo, List.length_append, List.length_replicate]
  omega

theorem le_length_padTo (l : List (List Char)) (n : Nat) :
    n ≤ (padTo l n).length := by
  rw [length_padTo]; omega

theorem getD_set_ne {α : Type} (l : List α) {i j : Nat} (v d : α) (h : i ≠ j) :
    (l.set i v).getD j d = l.getD j d := by
  induction l generalizing i j with
  | nil => simp
  | cons x xs ih =>
    cases i with
    | zero =>
      cases j with
      | zero => exact absurd rfl h
      | succ j' => simp [List.getD]
    | succ i' =>
      cases j with
      | zero => simp [List.getD]
      | succ j' =>
        have : i' ≠ j' := fun he => h (by rw [he])
        simp only [List.set, List.getD_cons_succ]
        exact ih this

theorem getD_set_self {α : Type} (l : List α) {i : Nat} (v d : α)
    (h : i < l.length) : (l.set i v).getD i d = v := by
  induction l generalizing i with
  | nil => simp at h
  | cons x xs ih =>
    cases i with
    | zero => simp [List.getD]
    | succ i' =>
      simp only [List.set, List.getD_cons_succ]
      exact ih (by simpa using h)

theorem getD_append_lt {α : Type} (a b : List α) {i : Nat} (d : α)
    (h : i < a.length) : (a ++ b).getD i d = a.getD i d := by
  induction a generalizing i with
  | nil => simp at h
  | cons x xs ih =>
    cases i with
    | zero => simp [List.getD]
    | succ i' =>
      simp only [List.cons_append, List.getD_cons_succ]
      exact ih (by simpa using h)

theorem getD_padTo_lt (l : List (List Char)) {i : Nat} (n : Nat)
    (h : i < l.length) : (padTo l n).getD i [] = l.getD i [] := by
  unfold padTo
  exact getD_append_lt l _ [] h

theorem length_set_eq {α : Type} (l : List α) (i : Nat) (v : α) :
    (l.set i v).length = l.length := by
  simp

/- ## C4: JSONL field preservation -/

theorem outSpecial_names (obj : List (List Char × JVal)) (name : List Char)
    (r : Option (List Char)) :
    ∀ x ∈ outSpecial obj name r, x.1 = name := by
  cases r with
  | none => simp [outSpecial]
  | some nv =>
    intro x hx
    simp only [outSpecial, List.mem_singleton] at hx
    rw [hx]

theorem drop_suffix {α : Type} (x y : List α) :
    (x ++ y).drop ((x ++ y).length - y.length) = y := by
  have h : (x ++ y).length - y.length = x.length := by simp
  rw [h, drop_len_append]

/-- C4 (amended): in both the edge and the vertex JSONL transformer, every
non-special input field (name not among `_key`/`_from`/`_to`, resp.
`_key`/SGA) is preserved in the output in its original encounter order with
its original JSON value, and these preserved fields form exactly the tail of
the output line after the specially emitted fields. (As stated the claim is
false: the special `_key` field itself can be dropped, see the
counterexample.) -/
theorem C4_jsonl_nonspecial_preserved (keyTab : List (List Char × Nat))
    (attrs : List (List Char)) (si : Int) (fromColl toColl : List Char)
    (smartAttr smartValue : List Char) (smartIndex : Int)
    (hashSmartValue : Bool) (hashFn : List Char → List Char)
    (smartDefault : List Char) (writeKey : Bool) (keyValue : List Char)
    (obj : List (List Char × JVal)) :
    (filterP (fun p => p.1 ≠ kKey ∧ p.1 ≠ kFrom ∧ p.1 ≠ kTo)
        (edgeLineJSONL keyTab attrs si fromColl toColl obj) =
      (filterP (fun p => p.1 ≠ kKey ∧ p.1 ≠ kFrom ∧ p.1 ≠ kTo) obj).map
        (fun p => (p.1, renderJ p.2))) ∧
    ((edgeLineJSONL keyTab attrs si fromColl toColl obj).drop
        ((edgeLineJSONL keyTab attrs si fromColl toColl obj).length -
          ((filterP (fun p => p.1 ≠ kKey ∧ p.1 ≠ kFrom ∧ p.1 ≠ kTo) obj).map
            (fun p => (p.1, renderJ p.2))).length) =
      (filterP (fun p => p.1 ≠ kKey ∧ p.1 ≠ kFrom ∧ p.1 ≠ kTo) obj).map
        (fun p => (p.1, renderJ p.2))) ∧
    (filterP (fun p => p.1 ≠ kKey ∧ p.1 ≠ smartAttr)
        (vertexLineJSONL smartAttr smartValue smartIndex hashSmartValue hashFn
          smartDefault writeKey keyValue obj) =
      (filterP (fun p => p.1 ≠ kKey ∧ p.1 ≠ smartAttr) obj).map
        (fun p => (p.1, renderJ p.2))) ∧
    ((vertexLineJSONL smartAttr smartValue smartIndex hashSmartValue hashFn
          smartDefault writeKey keyValue obj).drop
        ((vertexLineJSONL smartAttr smartValue smartIndex hashSmartValue hashFn
            smartDefault writeKey keyValue obj).length -
          ((filterP (fun p => p.1 ≠ kKey ∧ p.1 ≠ smartAttr) obj).map
            (fun p => (p.1, renderJ p.2))).length) =
      (filterP (fun p => p.1 ≠ kKey ∧ p.1 ≠ smartAttr) obj).map
        (fun p => (p.1, renderJ p.2))) := by
  have hmapE := filterP_map (fun p : List Char × JVal => (p.1, renderJ p.2))
    (fun p : List Char × List Char => p.1 ≠ kKey ∧ p.1 ≠ kFrom ∧ p.1 ≠ kTo)
    (fun p : List Char × JVal => p.1 ≠ kKey ∧ p.1 ≠ kFrom ∧ p.1 ≠ kTo)
    (fun a => Iff.rfl) (filterP (fun p => p.1 ≠ kKey ∧ p.1 ≠ kFrom ∧ p.1 ≠ kTo) obj)
  have hselfE := filterP_eq_self_of_all
    (fun p : List Char × JVal => p.1 ≠ kKey ∧ p.1 ≠ kFrom ∧ p.1 ≠ kTo)
    (filterP (fun p => p.1 ≠ kKey ∧ p.1 ≠ kFrom ∧ p.1 ≠ kTo) obj)
    (fun x hx => (mem_filterP _ _ _ hx).1)
  have hmapV := filterP_map (fun p : List Char × JVal => (p.1, renderJ p.2))
    (fun p : List Char × List Char => p.1 ≠ kKey ∧ p.1 ≠ smartAttr)
    (fun p : List Char × JVal => p.1 ≠ kKey ∧ p.1 ≠ smartAttr)
    (fun a => Iff.rfl) (filterP (fun p => p.1 ≠ kKey ∧ p.1 ≠ smartAttr) obj)
  have hselfV := filterP_eq_self_of_all
    (fun p : List Char × JVal => p.1 ≠ kKey ∧ p.1 ≠ smartAttr)
    (filterP (fun p => p.1 ≠ kKey ∧ p.1 ≠ smartAttr) obj)
    (fun x hx => (mem_filterP _ _ _ hx).1)
  refine ⟨?_, ?_, ?_, ?_⟩
  · simp only [edgeLineJSONL]
    rw [filterP_append, filterP_append, filterP_append]
    rw [filterP_eq_nil_of_all _ _ (fun x hx hp =>
        hp.1 (outSpecial_names obj kKey _ x hx)),
      filterP_eq_nil_of_all _ _ (fun x hx hp =>
        hp.2.1 (outSpecial_names obj kFrom _ x hx)),
      filterP_eq_nil_of_all _ _ (fun x hx hp =>
        hp.2.2 (outSpecial_names obj kTo _ x hx)),
      hmapE, hselfE]
    simp
  · simp only [edgeLineJSONL]
    rw [← List.append_assoc, ← List.append_assoc]
    exact drop_suffix _ _
  · simp only [vertexLineJSONL]
    rw [filterP_append]
    rw [filterP_eq_nil_of_all _ _ (fun x hx hp => ?_)]
    · rw [filterP, if_neg (fun hp => hp.2 rfl), hmapV, hselfV]
      simp
    · rcases Decidable.em (writeKey = true ∨
        newKeyVertexJSONL keyValue (attOfVertexJSONL smartAttr smartValue
          smartIndex hashSmartValue hashFn smartDefault obj) obj ≠ []) with hc | hc
      · rw [if_pos hc] at hx
        simp only [List.mem_singleton] at hx
        exact hp.1 (by rw [hx])
      · rw [if_neg hc] at hx
        simp at hx
  · simp only [vertexLineJSONL]
    have hshape : ∀ K : List (List Char × List Char),
        K ++ ((smartAttr, '"' :: (attOfVertexJSONL smartAttr smartValue
            smartIndex hashSmartValue hashFn smartDefault obj ++ ['"'])) ::
          (filterP (fun p => p.1 ≠ kKey ∧ p.1 ≠ smartAttr) obj).map
            (fun p => (p.1, renderJ p.2))) =
        (K ++ [(smartAttr, '"' :: (attOfVertexJSONL smartAttr smartValue
            smartIndex hashSmartValue hashFn smartDefault obj ++ ['"']))]) ++
          (filterP (fun p => p.1 ≠ kKey ∧ p.1 ≠ smartAttr) obj).map
            (fun p => (p.1, renderJ p.2)) := by
      intro K; simp
    rw [hshape]
    exact drop_suffix _ _

/-- Counterexample for C4 as stated: the edge JSONL transformer drops the
input field `_key` entirely when an endpoint smart graph attribute is
unresolved (here: empty key table), so not every input field is preserved. -/
theorem C4_cex :
    getJ [(kKey, JVal.str ['k', '1']), (kFrom, JVal.str ['x']),
        (kTo, JVal.str ['y']), (['w'], JVal.scalar ['1'])] kKey =
      some (JVal.str ['k', '1']) ∧
    alookup (edgeLineJSONL [] [] (-1) ['V'] ['W']
        [(kKey, JVal.str ['k', '1']), (kFrom, JVal.str ['x']),
          (kTo, JVal.str ['y']), (['w'], JVal.scalar ['1'])]) kKey = none := by
  constructor <;> decide

/- ## Edge CSV line transformation (`transformEdgesCSV` lines 763-826) -/

/-- One data line of `transformEdgesCSV`: pad to the header width, translate
the `_from` and `_to` cells, then rewrite `_key` when it exists, both
endpoint attributes resolved and the key contains no ':'. `keyPos < 0` models
a missing `_key` column. -/
def edgeLineCSV (quo : Char) (keyTab : List (List Char × Nat))
    (attrs : List (List Char)) (si : Int) (fromColl toColl : List Char)
    (ncols : Nat) (keyPos : Int) (fromPos toPos : Nat)
    (parts0 : List (List Char)) : List (List Char) :=
  let parts1 := padTo parts0 ncols
  let fr := translateCSVField quo keyTab attrs si fromColl (parts1.getD fromPos [])
  let parts2 := parts1.set fromPos fr.1
  let tr := translateCSVField quo keyTab attrs si toColl (parts2.getD toPos [])
  let parts3 := parts2.set toPos tr.1
  if keyPos ≥ 0 ∧ fr.2 ≠ [] ∧ tr.2 ≠ [] then
    match idxOfCh (unquote (parts3.getD keyPos.toNat []) quo) ':' with
    | none => parts3.set keyPos.toNat
        (quote (fr.2 ++ ':' :: (unquote (parts3.getD keyPos.toNat []) quo
          ++ ':' :: tr.2)) quo)
    | some _ => parts3
  else parts3

/- ## C3: edge `_key` rewriting -/

theorem edgeKeyRes_rewrite (fa ta k : List Char) (obj : List (List Char × JVal))
    (hfa : fa ≠ []) (hta : ta ≠ []) (hk : getJ obj kKey = some (JVal.str k))
    (hnc : ':' ∉ k) :
    edgeKeyRes fa ta obj = some (fa ++ ':' :: (k ++ ':' :: ta)) := by
  unfold edgeKeyRes
  rw [if_pos (And.intro hfa hta), hk]
  simp [idxOfCh_eq_none_iff.mpr hnc]

theorem edgeKeyRes_untouched (fa ta k : List Char) (obj : List (List Char × JVal))
    (hfa : fa ≠ []) (hta : ta ≠ []) (hk : getJ obj kKey = some (JVal.str k))
    (hc : ':' ∈ k) : edgeKeyRes fa ta obj = some [] := by
  unfold edgeKeyRes
  rw [if_pos (And.intro hfa hta), hk]
  cases hidx : idxOfCh k ':' with
  | none => exact absurd (idxOfCh_eq_none_iff.mp hidx) (by simp [hc])
  | some p => simp [hidx]

theorem edgeKeyRes_none_unresolved (fa ta : List Char)
    (obj : List (List Char × JVal)) (h : ¬(fa ≠ [] ∧ ta ≠ [])) :
    edgeKeyRes fa ta obj = none := by
  unfold edgeKeyRes
  rw [if_neg h]

theorem edgeKeyRes_none_nonstring (fa ta : List Char)
    (obj : List (List Char × JVal)) (h : ∀ k, getJ obj kKey ≠ some (JVal.str k)) :
    edgeKeyRes fa ta obj = none := by
  unfold edgeKeyRes
  by_cases hc : fa ≠ [] ∧ ta ≠ []
  · rw [if_pos hc]
    cases hk : getJ obj kKey with
    | none => rfl
    | some jv =>
      cases jv with
      | str s => exact absurd hk (h s)
      | scalar r => rfl
      | complex r => rfl
  · rw [if_neg hc]

theorem alookup_edge_tail_none (obj : List (List Char × JVal))
    (r1 r2 : Option (List Char)) :
    alookup (outSpecial obj kFrom r1 ++ (outSpecial obj kTo r2 ++
      (filterP (fun p => p.1 ≠ kKey ∧ p.1 ≠ kFrom ∧ p.1 ≠ kTo) obj).map
        (fun p => (p.1, renderJ p.2)))) kKey = none := by
  apply alookup_eq_none_of_all
  intro x hx
  rcases List.mem_append.mp hx with h1 | h23
  · rw [outSpecial_names obj kFrom r1 x h1]; decide
  · rcases List.mem_append.mp h23 with h2 | h3
    · rw [outSpecial_names obj kTo r2 x h2]; decide
    · obtain ⟨y, hy, rfl⟩ := List.mem_map.mp h3
      exact (mem_filterP _ _ _ hy).1.1

/-- C3 (amended): the `_key` of an edge record is rewritten to
`fromAtt:origKey:toAtt` exactly when the key exists, both endpoint smart
graph attributes resolve non-empty, and the key contains no ':'. In the CSV
transformer the key cell is otherwise left untouched, as the claim states.
In the JSONL transformer the otherwise-case differs from the claim: the
original `_key` is kept only when both attributes resolve and the key is a
string containing ':'; when an attribute is unresolved or the key is not a
string, the `_key` field is omitted from the output line entirely. -/
theorem C3_edge_key_rewrite (keyTab : List (List Char × Nat))
    (attrs : List (List Char)) (si : Int) (quo : Char)
    (fromColl toColl : List Char) (obj : List (List Char × JVal)) :
    (∀ ncols (keyPos : Int) (fromPos toPos : Nat) parts0,
      fromPos ≠ toPos → keyPos.toNat ≠ fromPos → keyPos.toNat ≠ toPos →
      keyPos.toNat < ncols → keyPos ≥ 0 →
      (translateCSVField quo keyTab attrs si fromColl
        ((padTo parts0 ncols).getD fromPos [])).2 ≠ [] →
      (translateCSVField quo keyTab attrs si toColl
        ((padTo parts0 ncols).getD toPos [])).2 ≠ [] →
      ':' ∉ unquote ((padTo parts0 ncols).getD keyPos.toNat []) quo →
      (edgeLineCSV quo keyTab attrs si fromColl toColl ncols keyPos fromPos
          toPos parts0).getD keyPos.toNat [] =
        quote ((translateCSVField quo keyTab attrs si fromColl
            ((padTo parts0 ncols).getD fromPos [])).2 ++ ':' ::
          (unquote ((padTo parts0 ncols).getD keyPos.toNat []) quo ++ ':' ::
            (translateCSVField quo keyTab attrs si toColl
              ((padTo parts0 ncols).getD toPos [])).2)) quo) ∧
    (∀ ncols (keyPos : Int) (fromPos toPos : Nat) parts0,
      fromPos ≠ toPos → keyPos.toNat ≠ fromPos → keyPos.toNat ≠ toPos →
      ((translateCSVField quo keyTab attrs si fromColl
          ((padTo parts0 ncols).getD fromPos [])).2 = [] ∨
        (translateCSVField quo keyTab attrs si toColl
          ((padTo parts0 ncols).getD toPos [])).2 = [] ∨
        ':' ∈ unquote ((padTo parts0 ncols).getD keyPos.toNat []) quo ∨
        ¬keyPos ≥ 0) →
      (edgeLineCSV quo keyTab attrs si fromColl toColl ncols keyPos fromPos
          toPos parts0).getD keyPos.toNat [] =
        (padTo parts0 ncols).getD keyPos.toNat []) ∧
    (∀ k, ((endpointRes keyTab attrs si fromColl kFrom obj).map Prod.snd).getD [] ≠ [] →
      ((endpointRes keyTab attrs si toColl kTo obj).map Prod.snd).getD [] ≠ [] →
      getJ obj kKey = some (JVal.str k) → ':' ∉ k →
      alookup (edgeLineJSONL keyTab attrs si fromColl toColl obj) kKey =
        some ('"' ::
          ((((endpointRes keyTab attrs si fromColl kFrom obj).map Prod.snd).getD [] ++
            ':' :: (k ++ ':' ::
              ((endpointRes keyTab attrs si toColl kTo obj).map Prod.snd).getD [])) ++
            ['"']))) ∧
    (∀ k, ((endpointRes keyTab attrs si fromColl kFrom obj).map Prod.snd).getD [] ≠ [] →
      ((endpointRes keyTab attrs si toColl kTo obj).map Prod.snd).getD [] ≠ [] →
      getJ obj kKey = some (JVal.str k) → ':' ∈ k →
      alookup (edgeLineJSONL keyTab attrs si fromColl toColl obj) kKey =
        some (renderJ (JVal.str k))) ∧
    (¬(((endpointRes keyTab attrs si fromColl kFrom obj).map Prod.snd).getD [] ≠ [] ∧
        ((endpointRes keyTab attrs si toColl kTo obj).map Prod.snd).getD [] ≠ []) →
      alookup (edgeLineJSONL keyTab attrs si fromColl toColl obj) kKey = none) ∧
    ((∀ k, getJ obj kKey ≠ some (JVal.str k)) →
      alookup (edgeLineJSONL keyTab attrs si fromColl toColl obj) kKey = none) := by
  refine ⟨?_, ?_, ?_, ?_, ?_, ?_⟩
  · intro ncols keyPos fromPos toPos parts0 hft hkf hkt hklen hk0 hfa hta hnc
    simp only [edgeLineCSV]
    rw [getD_set_ne _ _ _ hft]
    rw [getD_set_ne _ _ _ (Ne.symm hkt), getD_set_ne _ _ _ (Ne.symm hkf)]
    rw [if_pos ⟨hk0, hfa, hta⟩, idxOfCh_eq_none_iff.mpr hnc]
    apply getD_set_self
    rw [length_set_eq, length_set_eq]
    exact lt_of_lt_of_le hklen (le_length_padTo parts0 ncols)
  · intro ncols keyPos fromPos toPos parts0 hft hkf hkt hother
    simp only [edgeLineCSV]
    rw [getD_set_ne _ _ _ hft]
    have huntouched :
        (((padTo parts0 ncols).set fromPos
          (translateCSVField quo keyTab attrs si fromColl
            ((padTo parts0 ncols).getD fromPos [])).1).set toPos
          (translateCSVField quo keyTab attrs si toColl
            ((padTo parts0 ncols).getD toPos [])).1).getD keyPos.toNat [] =
        (padTo parts0 ncols).getD keyPos.toNat [] := by
      rw [getD_set_ne _ _ _ (Ne.symm hkt), getD_set_ne _ _ _ (Ne.symm hkf)]
    rcases hother with h | h | h | h
    · rw [if_neg (fun hc => hc.2.1 h)]
      exact huntouched
    · rw [if_neg (fun hc => hc.2.2 h)]
      exact huntouched
    · by_cases hcond : keyPos ≥ 0 ∧
        (translateCSVField quo keyTab attrs si fromColl
          ((padTo parts0 ncols).getD fromPos [])).2 ≠ [] ∧
        (translateCSVField quo keyTab attrs si toColl
          ((padTo parts0 ncols).getD toPos [])).2 ≠ []
      · rw [if_pos hcond, huntouched]
        cases hidx : idxOfCh (unquote ((padTo parts0 ncols).getD keyPos.toNat []) quo) ':' with
        | none => exact absurd (idxOfCh_eq_none_iff.mp hidx) (not_not_intro h)
        | some p => exact huntouched
      · rw [if_neg hcond]
        exact huntouched
    · rw [if_neg (fun hc => h hc.1)]
      exact huntouched
  · intro k hfa hta hk hnc
    simp only [edgeLineJSONL]
    rw [edgeKeyRes_rewrite _ _ k obj hfa hta hk hnc]
    simp only [outSpecial]
    rw [if_neg (by simp)]
    simp [alookup]
  · intro k hfa hta hk hc
    simp only [edgeLineJSONL]
    rw [edgeKeyRes_untouched _ _ k obj hfa hta hk hc]
    simp only [outSpecial]
    simp [alookup, hk]
  · intro h
    simp only [edgeLineJSONL]
    rw [edgeKeyRes_none_unresolved _ _ obj h]
    simp only [outSpecial, List.nil_append]
    exact alookup_edge_tail_none obj _ _
  · intro h
    simp only [edgeLineJSONL]
    rw [edgeKeyRes_none_nonstring _ _ obj h]
    simp only [outSpecial, List.nil_append]
    exact alookup_edge_tail_none obj _ _

/-- Counterexample for C3 as stated: with an empty key table the endpoint
attributes do not resolve, and the JSONL edge transformer then drops the
present `_key` field instead of leaving it untouched in the output. -/
theorem C3_cex :
    getJ [(kKey, JVal.str ['e', '1']), (kFrom, JVal.str ['a']),
        (kTo, JVal.str ['b'])] kKey = some (JVal.str ['e', '1']) ∧
    alookup (edgeLineJSONL [] [] (-1) ['V'] ['W']
        [(kKey, JVal.str ['e', '1']), (kFrom, JVal.str ['a']),
          (kTo, JVal.str ['b'])]) kKey = none := by
  constructor <;> decide

/-- Witness for C3: table maps V/a to attribute A. The six cases at concrete
inputs: CSV rewrite, CSV untouched (unresolved endpoint), JSONL rewrite,
JSONL colon-untouched, JSONL drop on unresolved endpoint, JSONL drop on
non-string key. -/
theorem C3_witness :
    (edgeLineCSV '"' [(['V', '/', 'a'], 0)] [['A']] (-1) ['V'] ['V'] 3 0 1 2
        [['e'], ['V', '/', 'a'], ['V', '/', 'a']]).getD 0 [] =
      ['A', ':', 'e', ':', 'A'] ∧
    (edgeLineCSV '"' [(['V', '/', 'a'], 0)] [['A']] (-1) ['V'] ['V'] 3 0 1 2
        [['e'], ['W', '/', 'x'], ['V', '/', 'a']]).getD 0 [] = ['e'] ∧
    alookup (edgeLineJSONL [(['V', '/', 'a'], 0)] [['A']] (-1) ['V'] ['V']
        [(kKey, JVal.str ['e']), (kFrom, JVal.str ['V', '/', 'a']),
          (kTo, JVal.str ['V', '/', 'a'])]) kKey =
      some ['"', 'A', ':', 'e', ':', 'A', '"'] ∧
    alookup (edgeLineJSONL [(['V', '/', 'a'], 0)] [['A']] (-1) ['V'] ['V']
        [(kKey, JVal.str ['x', ':', 'y']), (kFrom, JVal.str ['V', '/', 'a']),
          (kTo, JVal.str ['V', '/', 'a'])]) kKey =
      some (renderJ (JVal.str ['x', ':', 'y'])) ∧
    alookup (edgeLineJSONL [(['V', '/', 'a'], 0)] [['A']] (-1) ['V'] ['V']
        [(kKey, JVal.str ['e']), (kFrom, JVal.str ['w']),
          (kTo, JVal.str ['V', '/', 'a'])]) kKey = none ∧
    alookup (edgeLineJSONL [(['V', '/', 'a'], 0)] [['A']] (-1) ['V'] ['V']
        [(kKey, JVal.scalar ['3']), (kFrom, JVal.str ['V', '/', 'a']),
          (kTo, JVal.str ['V', '/', 'a'])]) kKey = none := by
  obtain ⟨ca, cb, -, -, -, -⟩ :=
    C3_edge_key_rewrite [(['V', '/', 'a'], 0)] [['A']] (-1) '"' ['V'] ['V'] []
  obtain ⟨-, -, jc, -, -, -⟩ :=
    C3_edge_key_rewrite [(['V', '/', 'a'], 0)] [['A']] (-1) '"' ['V'] ['V']
      [(kKey, JVal.str ['e']), (kFrom, JVal.str ['V', '/', 'a']),
        (kTo, JVal.str ['V', '/', 'a'])]
  obtain ⟨-, -, -, jd, -, -⟩ :=
    C3_edge_key_rewrite [(['V', '/', 'a'], 0)] [['A']] (-1) '"' ['V'] ['V']
      [(kKey, JVal.str ['x', ':', 'y']), (kFrom, JVal.str ['V', '/', 'a']),
        (kTo, JVal.str ['V', '/', 'a'])]
  obtain ⟨-, -, -, -, je, -⟩ :=
    C3_edge_key_rewrite [(['V', '/', 'a'], 0)] [['A']] (-1) '"' ['V'] ['V']
      [(kKey, JVal.str ['e']), (kFrom, JVal.str ['w']),
        (kTo, JVal.str ['V', '/', 'a'])]
  obtain ⟨-, -, -, -, -, jf⟩ :=
    C3_edge_key_rewrite [(['V', '/', 'a'], 0)] [['A']] (-1) '"' ['V'] ['V']
      [(kKey, JVal.scalar ['3']), (kFrom, JVal.str ['V', '/', 'a']),
        (kTo, JVal.str ['V', '/', 'a'])]
  refine ⟨?_, ?_, ?_, ?_, ?_, ?_⟩
  · exact ca 3 0 1 2 [['e'], ['V', '/', 'a'], ['V', '/', 'a']] (by decide)
      (by decide) (by decide) (by decide) (by decide) (by decide) (by decide)
      (by decide)
  · exact cb 3 0 1 2 [['e'], ['W', '/', 'x'], ['V', '/', 'a']] (by decide)
      (by decide) (by decide) (Or.inl (by decide))
  · exact jc ['e'] (by decide) (by decide) (by decide) (by decide)
  · exact jd ['x', ':', 'y'] (by decide) (by decide) (by decide) (by decide)
  · exact je (by decide)
  · refine jf ?_
    intro k h
    rw [(show getJ [(kKey, JVal.scalar ['3']), (kFrom, JVal.str ['V', '/', 'a']),
        (kTo, JVal.str ['V', '/', 'a'])] kKey = some (JVal.scalar ['3'])
      from by decide)] at h
    exact absurd h (by simp)

/- ## Vertex CSV transformation (`transformVertexCSV`, lines 284-343) -/

/-- Column padding of `transformVertexCSV` (lines 289-298): pad to `ncols`,
then append one empty cell for the smart attribute column and/or the key
column when they were appended to the header. -/
def padVertexCSV (ncols smartAttrPos keyPos : Nat)
    (parts : List (List Char)) : List (List Char) :=
  let parts1 := padTo parts ncols
  let parts2 := if smartAttrPos ≥ ncols then parts1 ++ [[]] else parts1
  if keyPos ≥ ncols then parts2 ++ [[]] else parts2

/-- Smart graph attribute derivation of `transformVertexCSV` (lines 300-314);
`hashFn` stands for the deterministic `calculateSha1`. Returns the updated
row and the attribute value. -/
def deriveAttCSV (quo : Char) (smartAttrPos : Nat) (smartValuePos : Int)
    (smartIndex : Int) (hashSmartValue : Bool) (hashFn : List Char → List Char)
    (parts : List (List Char)) : List (List Char) × List Char :=
  if smartValuePos ≥ 0 then
    let a0 := unquote (parts.getD smartValuePos.toNat []) quo
    let a1 := if hashSmartValue then hashFn a0 else a0
    let a2 := if smartIndex > 0 then a1.take smartIndex.toNat else a1
    (parts.set smartAttrPos (quote a2 quo), a2)
  else (parts, unquote (parts.getD smartAttrPos []) quo)

/-- The source of the raw key (lines 318-323): the `--key-value` column when
configured, else the `_key` column. -/
def keySrcCSV (quo : Char) (keyPos : Nat) (keyValuePos : Int)
    (parts : List (List Char)) : List Char :=
  if keyValuePos ≥ 0 then unquote (parts.getD keyValuePos.toNat []) quo
  else unquote (parts.getD keyPos []) quo

/-- Key rewriting of `transformVertexCSV` (lines 324-335): prefix a colon-free
key with `att:`; leave a key whose part before the first ':' equals `att`
unchanged; otherwise warn and rewrite to `att:` plus the part after the first
':'. -/
def keyStepCSV (quo : Char) (keyPos : Nat) (keyValuePos : Int)
    (att : List Char) (parts : List (List Char)) : List (List Char) :=
  match idxOfCh (keySrcCSV quo keyPos keyValuePos parts) ':' with
  | none => parts.set keyPos
      (quote (att ++ ':' :: keySrcCSV quo keyPos keyValuePos parts) quo)
  | some p =>
    if (keySrcCSV quo keyPos keyValuePos parts).take p ≠ att then
      parts.set keyPos
        (quote (att ++ ':' :: (keySrcCSV quo keyPos keyValuePos parts).drop (p + 1)) quo)
    else parts

/-- One data row of `transformVertexCSV` (lines 284-343), on the split row. -/
def transformVertexCSVParts (quo : Char) (ncols smartAttrPos : Nat)
    (smartValuePos smartIndex : Int) (hashSmartValue : Bool)
    (hashFn : List Char → List Char) (keyPos : Nat) (keyValuePos : Int)
    (parts0 : List (List Char)) : List (List Char) :=
  let parts := padVertexCSV ncols smartAttrPos keyPos parts0
  let der := deriveAttCSV quo smartAttrPos smartValuePos smartIndex
    hashSmartValue hashFn parts
  keyStepCSV quo keyPos keyValuePos der.2 der.1

/- ## C1: vertex `_key` rewriting -/

/-- C1 (amended): in the CSV vertex transformer the key column behaves as the
claim states: a colon-free source key `orig` is rewritten to `att:orig`, a
key `att:rest` (matching the derived attribute before its first ':') is left
unchanged, and a key `pre:rest` with `pre ≠ att` is rewritten with a warning
to `att:rest`. The full row transform is the key step applied after padding
and attribute derivation. In the JSONL vertex transformer, a colon-free key
is rewritten to `att:key` when `att` is non-empty, but a key that already
contains ':' is ALWAYS left unchanged - a mismatching prefix only produces a
warning, not a rewrite (this differs from the claim). -/
theorem C1_vertex_key_rewrite (quo : Char) (keyPos : Nat) (keyValuePos : Int)
    (smartAttr smartValue : List Char) (smartIndex : Int)
    (hashSmartValue : Bool) (hashFn : List Char → List Char)
    (smartDefault : List Char) (writeKey : Bool) (keyValue : List Char)
    (obj : List (List Char × JVal)) :
    (∀ att parts orig, keySrcCSV quo keyPos keyValuePos parts = orig →
      ':' ∉ orig →
      keyStepCSV quo keyPos keyValuePos att parts =
        parts.set keyPos (quote (att ++ ':' :: orig) quo)) ∧
    (∀ att parts rest,
      keySrcCSV quo keyPos keyValuePos parts = att ++ ':' :: rest →
      ':' ∉ att → keyStepCSV quo keyPos keyValuePos att parts = parts) ∧
    (∀ att parts pre rest,
      keySrcCSV quo keyPos keyValuePos parts = pre ++ ':' :: rest →
      ':' ∉ pre → pre ≠ att →
      keyStepCSV quo keyPos keyValuePos att parts =
        parts.set keyPos (quote (att ++ ':' :: rest) quo)) ∧
    (∀ ncols smartAttrPos smartValuePos parts0,
      transformVertexCSVParts quo ncols smartAttrPos smartValuePos smartIndex
          hashSmartValue hashFn keyPos keyValuePos parts0 =
        keyStepCSV quo keyPos keyValuePos
          (deriveAttCSV quo smartAttrPos smartValuePos smartIndex
            hashSmartValue hashFn (padVertexCSV ncols smartAttrPos keyPos parts0)).2
          (deriveAttCSV quo smartAttrPos smartValuePos smartIndex
            hashSmartValue hashFn (padVertexCSV ncols smartAttrPos keyPos parts0)).1) ∧
    (∀ key, getJ obj (if keyValue ≠ [] then keyValue else kKey) = some (JVal.str key) →
      ':' ∉ key →
      attOfVertexJSONL smartAttr smartValue smartIndex hashSmartValue hashFn
        smartDefault obj ≠ [] →
      alookup (vertexLineJSONL smartAttr smartValue smartIndex hashSmartValue
          hashFn smartDefault writeKey keyValue obj) kKey =
        some ('"' :: ((attOfVertexJSONL smartAttr smartValue smartIndex
          hashSmartValue hashFn smartDefault obj ++ ':' :: key) ++ ['"']))) ∧
    (∀ key, getJ obj (if keyValue ≠ [] then keyValue else kKey) = some (JVal.str key) →
      ':' ∈ key →
      alookup (vertexLineJSONL smartAttr smartValue smartIndex hashSmartValue
          hashFn smartDefault writeKey keyValue obj) kKey =
        some ('"' :: (key ++ ['"']))) := by
  refine ⟨?_, ?_, ?_, ?_, ?_, ?_⟩
  · intro att parts orig horig hnc
    unfold keyStepCSV
    rw [horig, idxOfCh_eq_none_iff.mpr hnc]
  · intro att parts rest hsrc hnc
    unfold keyStepCSV
    rw [hsrc, idxOfCh_append_cons rest hnc]
    simp [take_len_append]
  · intro att parts pre rest hsrc hnc hne
    unfold keyStepCSV
    rw [hsrc, idxOfCh_append_cons rest hnc]
    simp [take_len_append, drop_len_succ_append, hne]
  · intro ncols smartAttrPos smartValuePos parts0
    rfl
  · intro key hget hnc hatt
    have hnk : newKeyVertexJSONL keyValue
        (attOfVertexJSONL smartAttr smartValue smartIndex hashSmartValue hashFn
          smartDefault obj) obj =
        attOfVertexJSONL smartAttr smartValue smartIndex hashSmartValue hashFn
          smartDefault obj ++ ':' :: key := by
      unfold newKeyVertexJSONL
      rw [hget]
      simp [idxOfCh_eq_none_iff.mpr hnc, hatt]
    simp only [vertexLineJSONL, hnk]
    rw [if_pos (Or.inr (by simp))]
    simp [alookup]
  · intro key hget hc
    have hnk : newKeyVertexJSONL keyValue
        (attOfVertexJSONL smartAttr smartValue smartIndex hashSmartValue hashFn
          smartDefault obj) obj = key := by
      unfold newKeyVertexJSONL
      rw [hget]
      cases hidx : idxOfCh key ':' with
      | none => exact absurd (idxOfCh_eq_none_iff.mp hidx) (not_not_intro hc)
      | some p => simp [hidx]
    simp only [vertexLineJSONL, hnk]
    rw [if_pos (Or.inr (List.ne_nil_of_mem hc))]
    simp [alookup]

/-- Counterexample for C1 as stated: in the JSONL transformer a key with a
mismatching prefix (`X:k` with derived attribute `A`) is left unchanged in
the output instead of being rewritten to `A:k` as the claim requires. -/
theorem C1_cex :
    alookup (vertexLineJSONL ['s'] [] (-1) false id [] true []
        [(kKey, JVal.str ['X', ':', 'k']), (['s'], JVal.str ['A'])]) kKey =
      some ['"', 'X', ':', 'k', '"'] ∧
    (['"', 'X', ':', 'k', '"'] : List Char) ≠ ['"', 'A', ':', 'k', '"'] := by
  constructor <;> decide

/-- Witness for C1: the three CSV cases and the two JSONL cases at concrete
inputs (derived attribute `A`). -/
theorem C1_witness :
    keyStepCSV '"' 1 (-1) ['A'] [['A'], ['k']] = [['A'], ['A', ':', 'k']] ∧
    keyStepCSV '"' 1 (-1) ['A'] [['A'], ['A', ':', 'k']] = [['A'], ['A', ':', 'k']] ∧
    keyStepCSV '"' 1 (-1) ['A'] [['A'], ['X', ':', 'k']] = [['A'], ['A', ':', 'k']] ∧
    alookup (vertexLineJSONL ['s'] [] (-1) false id [] true []
        [(kKey, JVal.str ['k']), (['s'], JVal.str ['A'])]) kKey =
      some ['"', 'A', ':', 'k', '"'] ∧
    alookup (vertexLineJSONL ['s'] [] (-1) false id [] true []
        [(kKey, JVal.str ['A', ':', 'k']), (['s'], JVal.str ['A'])]) kKey =
      some ['"', 'A', ':', 'k', '"'] := by
  obtain ⟨c1, c2, c3, -, -, -⟩ := C1_vertex_key_rewrite '"' 1 (-1) [] [] (-1)
    false id [] true [] []
  obtain ⟨-, -, -, -, j1, -⟩ := C1_vertex_key_rewrite '"' 1 (-1) ['s'] [] (-1)
    false id [] true []
    [(kKey, JVal.str ['k']), (['s'], JVal.str ['A'])]
  obtain ⟨-, -, -, -, -, j2⟩ := C1_vertex_key_rewrite '"' 1 (-1) ['s'] [] (-1)
    false id [] true []
    [(kKey, JVal.str ['A', ':', 'k']), (['s'], JVal.str ['A'])]
  exact ⟨c1 ['A'] [['A'], ['k']] ['k'] (by decide) (by decide),
    c2 ['A'] [['A'], ['A', ':', 'k']] ['k'] (by decide) (by decide),
    c3 ['A'] [['A'], ['X', ':', 'k']] ['X'] ['k'] (by decide) (by decide) (by decide),
    j1 ['k'] (by decide) (by decide) (by decide),
    j2 ['A', ':', 'k'] (by decide) (by decide)⟩

/- ## C8: idempotence of the vertex CSV transform -/

theorem length_deriveAttCSV (quo : Char) (sap : Nat) (svp si : Int)
    (hsv : Bool) (f : List Char → List Char) (parts : List (List Char)) :
    (deriveAttCSV quo sap svp si hsv f parts).1.length = parts.length := by
  unfold deriveAttCSV
  by_cases h : svp ≥ 0 <;> simp [h]

theorem length_keyStepCSV (quo : Char) (kp : Nat) (kvp : Int)
    (att : List Char) (parts : List (List Char)) :
    (keyStepCSV quo kp kvp att parts).length = parts.length := by
  unfold keyStepCSV
  cases idxOfCh (keySrcCSV quo kp kvp parts) ':' with
  | none => simp
  | some p => by_cases h : (keySrcCSV quo kp kvp parts).take p ≠ att <;> simp [h]

theorem getD_replicate_nil (m j : Nat) :
    (List.replicate m ([] : List Char)).getD j [] = [] := by
  induction m generalizing j with
  | zero => simp
  | succ m' ih =>
    cases j with
    | zero => simp [List.replicate]
    | succ j' => simp only [List.replicate, List.getD_cons_succ]; exact ih j'

theorem getD_append_ge {α : Type} (a b : List α) (d : α) (j : Nat)
    (h : a.length ≤ j) : (a ++ b).getD j d = b.getD (j - a.length) d := by
  induction a generalizing j with
  | nil => simp
  | cons x xs ih =>
    cases j with
    | zero => simp at h
    | succ j' =>
      simp only [List.cons_append, List.getD_cons_succ, List.length_cons]
      rw [ih j' (by simpa using h), Nat.succ_sub_succ]

theorem length_padVertexCSV_ge (ncols sap kp : Nat) (parts : List (List Char)) :
    ncols + (if sap ≥ ncols then 1 else 0) + (if kp ≥ ncols then 1 else 0) ≤
      (padVertexCSV ncols sap kp parts).length := by
  unfold padVertexCSV
  have hbase := le_length_padTo parts ncols
  by_cases hs : sap ≥ ncols <;> by_cases hk : kp ≥ ncols <;>
    simp [hs, hk] <;> omega

theorem length_edgeLineCSV (quo : Char) (keyTab : List (List Char × Nat))
    (attrs : List (List Char)) (si : Int) (fc tc : List Char) (ncols : Nat)
    (keyPosE : Int) (fromPos toPos : Nat) (parts0 : List (List Char)) :
    (edgeLineCSV quo keyTab attrs si fc tc ncols keyPosE fromPos toPos
      parts0).length = (padTo parts0 ncols).length := by
  simp only [edgeLineCSV]
  split
  · split <;> simp
  · simp

/-- C10: both CSV transformers pad short rows with empty cells: every output
row of the vertex transformer has at least `ncols` plus the appended
SGA/`_key` columns many fields, every output row of the edge transformer has
at least `ncols` fields, and all padded positions hold the empty string. -/
theorem C10_csv_padding (quo : Char) (ncols sap : Nat) (svp si : Int)
    (hsv : Bool) (f : List Char → List Char) (kp : Nat) (kvp : Int)
    (keyTab : List (List Char × Nat)) (attrs : List (List Char))
    (fc tc : List Char) (keyPosE : Int) (fromPos toPos : Nat)
    (parts0 : List (List Char)) :
    (ncols + (if sap ≥ ncols then 1 else 0) + (if kp ≥ ncols then 1 else 0) ≤
      (transformVertexCSVParts quo ncols sap svp si hsv f kp kvp
        parts0).length) ∧
    (ncols ≤ (edgeLineCSV quo keyTab attrs si fc tc ncols keyPosE fromPos
      toPos parts0).length) ∧
    (∀ j, parts0.length ≤ j → (padTo parts0 ncols).getD j [] = []) := by
  refine ⟨?_, ?_, ?_⟩
  · have hv : (transformVertexCSVParts quo ncols sap svp si hsv f kp kvp
        parts0).length = (padVertexCSV ncols sap kp parts0).length := by
      unfold transformVertexCSVParts
      rw [length_keyStepCSV, length_deriveAttCSV]
    rw [hv]
    exact length_padVertexCSV_ge ncols sap kp parts0
  · rw [length_edgeLineCSV]
    exact le_length_padTo parts0 ncols
  · intro j hj
    unfold padTo
    rw [getD_append_ge _ _ _ j hj]
    exact getD_replicate_nil _ _

/-- Witness for C10: a one-cell row padded to three columns has empty cells
at the padded positions. -/
theorem C10_witness : (padTo [['x']] 3).getD 2 [] = [] :=
  (C10_csv_padding '"' 3 0 (-1) (-1) false id 1 (-1) [] [] [] [] (-1) 0 0
    [['x']]).2.2 2 (by decide)

/- ## Translation table (smartifier2.cpp lines 264-275, 645-696) -/

/-- The `Translation` struct: maps are modelled as association lists with
insert-if-absent prepending. The memory-usage constants are the typical
64-bit values of the `sizeof` expressions in the source (`sizeof
std::pair<std::string, uint32_t>` = 40, `sizeof std::string` = 32). -/
structure Translation where
  keyTab : List (List Char × Nat)
  attTab : List (List Char × Nat)
  smartAttributes : List (List Char)
  memUsage : Nat
deriving DecidableEq

/-- A freshly constructed (or cleared) translation table. -/
def emptyTranslation : Translation := ⟨[], [], [], 0⟩

/-- Interning step of `learnSmartKey` (lines 653-666): look up the attribute;
if absent, append it to `smartAttributes` and record its position. -/
def internAtt (trans : Translation) (att : List Char) : Translation × Nat :=
  match alookup trans.attTab att with
  | none =>
    ({ keyTab := trans.keyTab
       attTab := ((att, trans.smartAttributes.length) :: trans.attTab)
       smartAttributes := (trans.smartAttributes ++ [att])
       memUsage := (trans.memUsage + 40 + (att.length + 1) + 32 +
         (att.length + 1) + 32) },
      trans.smartAttributes.length)
  | some pos => (trans, pos)

/-- Key recording step of `learnSmartKey` (lines 667-674): insert
`uniq ↦ pos` into `keyTab` if absent. -/
def recordKey (trans : Translation) (uniq : List Char) (pos : Nat) : Translation :=
  match alookup trans.keyTab uniq with
  | none =>
    { keyTab := ((uniq, pos) :: trans.keyTab)
      attTab := trans.attTab
      smartAttributes := trans.smartAttributes
      memUsage := (trans.memUsage + 40 + (uniq.length + 1) + 32) }
  | some _ => trans

/-- `learnSmartKey` (smartifier2.cpp lines 645-676): a key without ':' is
ignored; otherwise the part before the first ':' is interned as a smart
graph attribute and `collName + "/" + rest` is recorded in `keyTab` if
absent. -/
def learnSmartKey (trans : Translation) (key collName : List Char) : Translation :=
  match idxOfCh key ':' with
  | none => trans
  | some splitPos =>
    let pr := internAtt trans (key.take splitPos)
    recordKey pr.1 (collName ++ '/' :: key.drop (splitPos + 1)) pr.2

/-- `learnLineCSV` (lines 678-683): split the line, unquote the key cell. -/
def learnLineCSV (trans : Translation) (line : List Char) (sep quo : Char)
    (keyPos : Nat) (collName : List Char) : Translation :=
  learnSmartKey trans (unquote ((split line sep quo).getD keyPos []) quo) collName

/-- `learnLineJSONL` (lines 685-696): ignore lines whose `_key` is not a
string. -/
def learnLineJSONL (trans : Translation) (obj : List (List Char × JVal))
    (collName : List Char) : Translation :=
  match getJ obj kKey with
  | some (JVal.str k) => learnSmartKey trans k collName
  | _ => trans

/-- The sequence of `learnSmartKey` calls performed by
`VertexBuffer::readMore` over the (collection name, key) pairs of the vertex
lines it consumes. -/
def learnMany (trans : Translation) (lines : List (List Char × List Char)) :
    Translation :=
  lines.foldl (fun t p => learnSmartKey t p.2 p.1) trans

/- ## C5 lemmas -/

/-- Well-formedness: every interned attribute maps to its own index. -/
def TransWF (t : Translation) : Prop :=
  ∀ x id, alookup t.attTab x = some id →
    id < t.smartAttributes.length ∧ t.smartAttributes.getD id [] = x

theorem transWF_empty : TransWF emptyTranslation := by
  intro x id h
  simp [emptyTranslation, alookup] at h

theorem recordKey_attTab (t : Translation) (uniq : List Char) (pos : Nat) :
    (recordKey t uniq pos).attTab = t.attTab := by
  unfold recordKey
  split <;> rfl

theorem recordKey_smartAttributes (t : Translation) (uniq : List Char) (pos : Nat) :
    (recordKey t uniq pos).smartAttributes = t.smartAttributes := by
  unfold recordKey
  split <;> rfl

theorem transWF_internAtt (t : Translation) (att : List Char) (hwf : TransWF t) :
    TransWF (internAtt t att).1 := by
  unfold internAtt
  cases halo : alookup t.attTab att with
  | some pos => exact hwf
  | none =>
    intro x id h
    simp only [alookup] at h
    by_cases hx : att = x
    · rw [if_pos hx] at h
      have hid : id = t.smartAttributes.length := (Option.some.inj h).symm
      subst hid
      constructor
      · simp
      · rw [getD_append_ge _ _ _ _ (le_refl _)]
        simp [hx]
    · rw [if_neg hx] at h
      obtain ⟨hlt, heq⟩ := hwf x id h
      constructor
      · simp only [List.length_append, List.length_singleton]
        omega
      · rw [getD_append_lt _ _ _ hlt, heq]

theorem transWF_learnSmartKey (t : Translation) (key coll : List Char)
    (hwf : TransWF t) : TransWF (learnSmartKey t key coll) := by
  unfold learnSmartKey
  cases idxOfCh key ':' with
  | none => exact hwf
  | some splitPos =>
    have h1 := transWF_internAtt t (key.take splitPos) hwf
    intro x id h
    rw [recordKey_attTab] at h
    rw [recordKey_smartAttributes]
    exact h1 x id h

theorem internAtt_attTab_persist (t : Translation) (att x : List Char)
    (id : Nat) (h : alookup t.attTab x = some id) :
    alookup (internAtt t att).1.attTab x = some id := by
  unfold internAtt
  cases halo : alookup t.attTab att with
  | some pos => exact h
  | none =>
    have hne : att ≠ x := by
      intro he
      rw [he, h] at halo
      exact Option.noConfusion halo
    simp only [alookup, if_neg hne]
    exact h

theorem attTab_persist (t : Translation) (key coll x : List Char) (id : Nat)
    (h : alookup t.attTab x = some id) :
    alookup (learnSmartKey t key coll).attTab x = some id := by
  unfold learnSmartKey
  cases idxOfCh key ':' with
  | none => exact h
  | some splitPos =>
    rw [recordKey_attTab]
    exact internAtt_attTab_persist t (key.take splitPos) x id h

theorem internAtt_keyTab (t : Translation) (att : List Char) :
    (internAtt t att).1.keyTab = t.keyTab := by
  unfold internAtt
  split <;> rfl

theorem recordKey_keyTab_persist (t : Translation) (uniq u : List Char)
    (pos id : Nat) (h : alookup t.keyTab u = some id) :
    alookup (recordKey t uniq pos).keyTab u = some id := by
  unfold recordKey
  cases hk : alookup t.keyTab uniq with
  | some v => exact h
  | none =>
    have hne : uniq ≠ u := by
      intro he
      rw [he, h] at hk
      exact Option.noConfusion hk
    simp only [alookup, if_neg hne]
    exact h

theorem keyTab_persist (t : Translation) (key coll u : List Char) (id : Nat)
    (h : alookup t.keyTab u = some id) :
    alookup (learnSmartKey t key coll).keyTab u = some id := by
  unfold learnSmartKey
  cases idxOfCh key ':' with
  | none => exact h
  | some splitPos =>
    apply recordKey_keyTab_persist
    rw [internAtt_keyTab]
    exact h

theorem internAtt_self (t : Translation) (att : List Char) :
    alookup (internAtt t att).1.attTab att = some (internAtt t att).2 := by
  unfold internAtt
  cases halo : alookup t.attTab att with
  | some pos => exact halo
  | none => simp [alookup]

theorem learn_first_record (t : Translation) (att rest coll : List Char)
    (hattc : ':' ∉ att)
    (hmiss : alookup t.keyTab (coll ++ '/' :: rest) = none) :
    ∃ id,
      alookup (learnSmartKey t (att ++ ':' :: rest) coll).keyTab
        (coll ++ '/' :: rest) = some id ∧
      alookup (learnSmartKey t (att ++ ':' :: rest) coll).attTab att = some id := by
  unfold learnSmartKey
  rw [idxOfCh_append_cons rest hattc]
  simp only [take_len_append, drop_len_succ_append]
  refine ⟨(internAtt t att).2, ?_, ?_⟩
  · unfold recordKey
    rw [internAtt_keyTab, hmiss]
    simp [alookup]
  · rw [recordKey_attTab]
    exact internAtt_self t att

theorem learnMany_append (t : Translation) (l1 l2 : List (List Char × List Char)) :
    learnMany t (l1 ++ l2) = learnMany (learnMany t l1) l2 := by
  unfold learnMany
  exact List.foldl_append _ _ l1 l2

theorem learnMany_cons (t : Translation) (p : List Char × List Char)
    (l : List (List Char × List Char)) :
    learnMany t (p :: l) = learnMany (learnSmartKey t p.2 p.1) l := rfl

theorem learnMany_keyTab_persist (t : Translation)
    (l : List (List Char × List Char)) (u : List Char) (id : Nat)
    (h : alookup t.keyTab u = some id) :
    alookup (learnMany t l).keyTab u = some id := by
  induction l generalizing t with
  | nil => exact h
  | cons p rest ih =>
    exact ih _ (keyTab_persist t p.2 p.1 u id h)

theorem learnMany_attTab_persist (t : Translation)
    (l : List (List Char × List Char)) (x : List Char) (id : Nat)
    (h : alookup t.attTab x = some id) :
    alookup (learnMany t l).attTab x = some id := by
  induction l generalizing t with
  | nil => exact h
  | cons p rest ih =>
    exact ih _ (attTab_persist t p.2 p.1 x id h)

theorem transWF_learnMany (t : Translation) (l : List (List Char × List Char))
    (hwf : TransWF t) : TransWF (learnMany t l) := by
  induction l generalizing t with
  | nil => exact hwf
  | cons p rest ih =>
    exact ih _ (transWF_learnSmartKey t p.2 p.1 hwf)

theorem list_get_split {α : Type} (l : List α) (i : Nat) (p : α)
    (h : l.get? i = some p) : l = l.take i ++ p :: l.drop (i + 1) := by
  induction l generalizing i with
  | nil => simp [List.get?] at h
  | cons x xs ih =>
    cases i with
    | zero =>
      simp only [List.get?] at h
      rw [Option.some.inj h]
      simp
    | succ i' =>
      simp only [List.get?] at h
      have hx := ih i' h
      simp only [List.take, List.drop, List.cons_append]
      rw [← hx]

/-- C5 (amended): after processing a sequence of vertex lines from empty,
(1) every interned smart graph attribute maps back to itself
(`smartAttributes[attTab[x]] = x`); (2) for every line whose key has the
form `att:rest` and whose reference `coll/rest` was NOT already present in
`keyTab` when the line was processed, `keyTab[coll/rest]` and `attTab[att]`
afterwards hold the same id; (3) a line whose key contains no ':' changes
nothing; (4) a JSONL line whose `_key` is not a string changes nothing. (As
stated the claim fails when the same reference appears again with a
different attribute: the first id is kept, see the counterexample.) -/
theorem C5_translation_table (lines : List (List Char × List Char)) :
    (∀ x id, alookup (learnMany emptyTranslation lines).attTab x = some id →
      (learnMany emptyTranslation lines).smartAttributes.getD id [] = x) ∧
    (∀ i coll att rest, lines.get? i = some (coll, att ++ ':' :: rest) →
      ':' ∉ att →
      alookup (learnMany emptyTranslation (lines.take i)).keyTab
        (coll ++ '/' :: rest) = none →
      ∃ id,
        alookup (learnMany emptyTranslation lines).keyTab
          (coll ++ '/' :: rest) = some id ∧
        alookup (learnMany emptyTranslation lines).attTab att = some id) ∧
    (∀ t key coll, ':' ∉ key → learnSmartKey t key coll = t) ∧
    (∀ t obj coll, getJ obj kKey = none ∨
        (∃ r, getJ obj kKey = some (JVal.scalar r)) ∨
        (∃ r, getJ obj kKey = some (JVal.complex r)) →
      learnLineJSONL t obj coll = t) := by
  refine ⟨?_, ?_, ?_, ?_⟩
  · intro x id h
    exact (transWF_learnMany emptyTranslation lines transWF_empty x id h).2
  · intro i coll att rest hget hattc hmiss
    have hsplit := list_get_split lines i (coll, att ++ ':' :: rest) hget
    obtain ⟨id, hk, ha⟩ := learn_first_record
      (learnMany emptyTranslation (lines.take i)) att rest coll hattc hmiss
    refine ⟨id, ?_, ?_⟩
    · conv_lhs => rw [hsplit]
      rw [learnMany_append, learnMany_cons]
      apply learnMany_keyTab_persist
      exact hk
    · conv_lhs => rw [hsplit]
      rw [learnMany_append, learnMany_cons]
      apply learnMany_attTab_persist
      exact ha
  · intro t key coll h
    unfold learnSmartKey
    rw [idxOfCh_eq_none_iff.mpr h]
  · intro t obj coll h
    unfold learnLineJSONL
    rcases h with h | ⟨r, h⟩ | ⟨r, h⟩ <;> rw [h]

/-- Counterexample for C5 as stated: processing `A:k` then `B:k` in
collection `c` leaves `keyTab[c/k] = 0` (the id of `A`) while
`attTab[B] = 1`, so the claim fails for the second line. -/
theorem C5_cex :
    [(['c'], ['A', ':', 'k']), (['c'], ['B', ':', 'k'])].get? 1 =
        some (['c'], ['B', ':', 'k']) ∧
    alookup (learnMany emptyTranslation
        [(['c'], ['A', ':', 'k']), (['c'], ['B', ':', 'k'])]).keyTab
      ['c', '/', 'k'] = some 0 ∧
    alookup (learnMany emptyTranslation
        [(['c'], ['A', ':', 'k']), (['c'], ['B', ':', 'k'])]).attTab
      ['B'] = some 1 := by
  refine ⟨rfl, ?_, ?_⟩ <;> decide

/-- Witness for C5: one line `A:k` in collection `c`, recorded for the first
time; plus the skip cases. -/
theorem C5_witness :
    (learnMany emptyTranslation [(['c'], ['A', ':', 'k'])]).smartAttributes.getD
        0 [] = ['A'] ∧
    (∃ id,
      alookup (learnMany emptyTranslation
        [(['c'], ['A', ':', 'k'])]).keyTab ['c', '/', 'k'] = some id ∧
      alookup (learnMany emptyTranslation
        [(['c'], ['A', ':', 'k'])]).attTab ['A'] = some id) ∧
    learnSmartKey emptyTranslation ['n', 'o', 'c'] ['c'] = emptyTranslation ∧
    learnLineJSONL emptyTranslation [(kKey, JVal.scalar ['7'])] ['c'] =
      emptyTranslation := by
  obtain ⟨w1, w2, w3, w4⟩ := C5_translation_table [(['c'], ['A', ':', 'k'])]
  refine ⟨w1 ['A'] 0 (by decide), ?_, w3 emptyTranslation ['n', 'o', 'c'] ['c']
    (by decide), w4 emptyTranslation [(kKey, JVal.scalar ['7'])] ['c']
    (Or.inr (Or.inl ⟨['7'], by decide⟩))⟩
  exact w2 0 ['c'] ['A'] ['k'] (by decide) (by decide) (by decide)

/- ## C9: edge-file replacement (smartifier2.cpp lines 843-855 and 999-1012) -/

/-- An abstract file system: a map from paths to contents. -/
structure FS where
  files : List (List Char × List Char)
deriving DecidableEq

/-- Content of a file, `none` when absent. -/
def readFS (fs : FS) (p : List Char) : Option (List Char) :=
  alookup fs.files p

/-- Creating/truncating and writing a file (the `std::fstream` output). -/
def writeFS (fs : FS) (p c : List Char) : FS :=
  ⟨(p, c) :: filterP (fun q => q.1 ≠ p) fs.files⟩

/-- `::unlink(path)`. -/
def unlinkFS (fs : FS) (p : List Char) : FS :=
  ⟨filterP (fun q => q.1 ≠ p) fs.files⟩

/-- `::rename(src, dst)`: moves the file when the source exists. -/
def renameFS (fs : FS) (src dst : List Char) : FS :=
  match alookup fs.files src with
  | none => fs
  | some c => writeFS (unlinkFS fs src) dst c

/-- The `.out` name suffix. -/
def outSuffix : List Char := ['.', 'o', 'u', 't']

/-- Tail of `transformEdgesCSV` (lines 843-855): having written `outContent`
to `<path>.out`, check the stream; on a good close unlink the original and
rename `.out` over it, returning 0; otherwise return the error code without
renaming. `transformEdgesCSV` uses error code 4, `transformEdgesJSONL`
(lines 999-1012) behaves identically with error code 1. -/
def finishEdgeFile (fs : FS) (path outContent : List Char) (good : Bool)
    (errCode : Nat) : Nat × FS :=
  let fs1 := writeFS fs (path ++ outSuffix) outContent
  if good then
    let fs2 := unlinkFS fs1 path
    (0, renameFS fs2 (path ++ outSuffix) path)
  else (errCode, fs1)

/-- File replacement used by `transformEdgesCSV` (error code 4). -/
def finishEdgesCSV (fs : FS) (path outContent : List Char) (good : Bool) :
    Nat × FS :=
  finishEdgeFile fs path outContent good 4

/-- File replacement used by `transformEdgesJSONL` (error code 1). -/
def finishEdgesJSONL (fs : FS) (path outContent : List Char) (good : Bool) :
    Nat × FS :=
  finishEdgeFile fs path outContent good 1

theorem alookup_filterP_ne {β : Type} (l : List (List Char × β))
    (p q : List Char) (h : q ≠ p) :
    alookup (filterP (fun r => r.1 ≠ p) l) q = alookup l q := by
  induction l with
  | nil => rfl
  | cons a rest ih =>
    obtain ⟨k, v⟩ := a
    by_cases hk : k = p
    · rw [filterP, if_neg (by simp [hk])]
      rw [ih, alookup, if_neg (by rw [hk]; exact fun he => h he.symm)]
    · rw [filterP, if_pos (by simpa using hk)]
      by_cases hq : k = q
      · simp [alookup, hq]
      · rw [alookup, if_neg hq, alookup, if_neg hq, ih]

theorem readFS_writeFS_self (fs : FS) (p c : List Char) :
    readFS (writeFS fs p c) p = some c := by
  simp [readFS, writeFS, alookup]

theorem readFS_writeFS_ne (fs : FS) (p q c : List Char) (h : q ≠ p) :
    readFS (writeFS fs p c) q = readFS fs q := by
  simp only [readFS, writeFS, alookup]
  rw [if_neg (fun he : p = q => h he.symm)]
  exact alookup_filterP_ne fs.files p q h

theorem readFS_unlinkFS_self (fs : FS) (p : List Char) :
    readFS (unlinkFS fs p) p = none := by
  apply alookup_eq_none_of_all
  intro q hq
  exact (mem_filterP _ _ _ hq).1

theorem readFS_unlinkFS_ne (fs : FS) (p q : List Char) (h : q ≠ p) :
    readFS (unlinkFS fs p) q = readFS fs q := by
  exact alookup_filterP_ne fs.files p q h

theorem append_outSuffix_ne (p : List Char) : p ++ outSuffix ≠ p := by
  intro h
  have hlen := congrArg List.length h
  simp [outSuffix] at hlen

/-- C9: the edge transformers write the output to `<path>.out`; when the
stream is good at close, the original is deleted, `.out` is renamed over it
and 0 is returned; when the close check fails, nothing is renamed (the
original input file keeps its content, the `.out` file stays) and a non-zero
code is returned. Holds for both the CSV (code 4) and JSONL (code 1)
transformer tails. -/
theorem C9_file_replacement (fs : FS) (path outContent orig : List Char)
    (horig : readFS fs path = some orig) :
    ((finishEdgesCSV fs path outContent true).1 = 0 ∧
      readFS (finishEdgesCSV fs path outContent true).2 path = some outContent ∧
      readFS (finishEdgesCSV fs path outContent true).2 (path ++ outSuffix) = none) ∧
    ((finishEdgesCSV fs path outContent false).1 ≠ 0 ∧
      readFS (finishEdgesCSV fs path outContent false).2 path = some orig ∧
      readFS (finishEdgesCSV fs path outContent false).2 (path ++ outSuffix) =
        some outContent) ∧
    ((finishEdgesJSONL fs path outContent true).1 = 0 ∧
      readFS (finishEdgesJSONL fs path outContent true).2 path = some outContent ∧
      readFS (finishEdgesJSONL fs path outContent true).2 (path ++ outSuffix) = none) ∧
    ((finishEdgesJSONL fs path outContent false).1 ≠ 0 ∧
      readFS (finishEdgesJSONL fs path outContent false).2 path = some orig ∧
      readFS (finishEdgesJSONL fs path outContent false).2 (path ++ outSuffix) =
        some outContent) := by
  have hne := append_outSuffix_ne path
  have hgood : ∀ errCode : Nat,
      (finishEdgeFile fs path outContent true errCode).1 = 0 ∧
      readFS (finishEdgeFile fs path outContent true errCode).2 path =
        some outContent ∧
      readFS (finishEdgeFile fs path outContent true errCode).2
        (path ++ outSuffix) = none := by
    intro errCode
    have hout : readFS (unlinkFS (writeFS fs (path ++ outSuffix) outContent) path)
        (path ++ outSuffix) = some outContent := by
      rw [readFS_unlinkFS_ne _ _ _ hne, readFS_writeFS_self]
    refine ⟨rfl, ?_, ?_⟩
    · simp only [finishEdgeFile, if_pos, renameFS]
      rw [show alookup (unlinkFS (writeFS fs (path ++ outSuffix) outContent)
          path).files (path ++ outSuffix) = some outContent from hout]
      exact readFS_writeFS_self _ _ _
    · simp only [finishEdgeFile, if_pos, renameFS]
      rw [show alookup (unlinkFS (writeFS fs (path ++ outSuffix) outContent)
          path).files (path ++ outSuffix) = some outContent from hout]
      rw [readFS_writeFS_ne _ _ _ _ hne, readFS_unlinkFS_self]
  have hbad : ∀ errCode : Nat,
      readFS (finishEdgeFile fs path outContent false errCode).2 path =
        some orig ∧
      readFS (finishEdgeFile fs path outContent false errCode).2
        (path ++ outSuffix) = some outContent := by
    intro errCode
    constructor
    · simp only [finishEdgeFile, if_neg Bool.false_ne_true]
      rw [readFS_writeFS_ne _ _ _ _ (fun he => hne he.symm), horig]
    · simp only [finishEdgeFile, if_neg Bool.false_ne_true]
      exact readFS_writeFS_self _ _ _
  exact ⟨⟨(hgood 4).1, (hgood 4).2.1, (hgood 4).2.2⟩,
    ⟨by simp [finishEdgesCSV, finishEdgeFile], (hbad 4).1, (hbad 4).2⟩,
    ⟨(hgood 1).1, (hgood 1).2.1, (hgood 1).2.2⟩,
    ⟨by simp [finishEdgesJSONL, finishEdgeFile], (hbad 1).1, (hbad 1).2⟩⟩

/-- Witness for C9 at a concrete file system: file `f` with content `old`. -/
theorem C9_witness :
    readFS (finishEdgesCSV ⟨[(['f'], ['o', 'l', 'd'])]⟩ ['f'] ['n', 'e', 'w']
        true).2 ['f'] = some ['n', 'e', 'w'] ∧
    readFS (finishEdgesCSV ⟨[(['f'], ['o', 'l', 'd'])]⟩ ['f'] ['n', 'e', 'w']
        false).2 ['f'] = some ['o', 'l', 'd'] := by
  have h := C9_file_replacement ⟨[(['f'], ['o', 'l', 'd'])]⟩ ['f']
    ['n', 'e', 'w'] ['o', 'l', 'd'] (by decide)
  exact ⟨h.1.2.1, h.2.1.2.1⟩

/- ## C8: idempotence of the vertex transforms -/

